import Mathlib

/-!
Verification of the translation-symmetry ISDF module (pyscf/pbc/df/isdf/isdf_k.py
and companions) against its specification.  The Python functions that the claims
refer to are given shallow embeddings below: index bookkeeping is carried out on
Nat exactly as the source does it (Python 0-based row-major indices, floor
division; Python modulo on possibly-negative differences is Int.emod), matrices
are total functions on indices with explicit shape data where a claim needs the
shape, and imperative in-place writes are folds of conditional updates over the
same loop ranges the source iterates.
-/

namespace ISDFKSym

/-- Flattened index of a lattice-translation triple, in the source convention
loc = ix * Ly * Lz + iy * Lz + iz used throughout isdf_k.py. -/
def flat3 (Ly Lz ix iy iz : ℕ) : ℕ := ix * (Ly * Lz) + iy * Lz + iz

/-- Python modular difference (a - b) % L on nonnegative inputs, including the
wrap-around for a < b; Int.emod has exactly the Python semantics for a
positive modulus. -/
def pySubMod (a b L : ℕ) : ℕ := (((a : ℤ) - (b : ℤ)) % (L : ℤ)).toNat

theorem pySubMod_lt (a b L : ℕ) (hL : 0 < L) : pySubMod a b L < L := by
  unfold pySubMod
  have h0 : (0:ℤ) < (L:ℤ) := by exact_mod_cast hL
  have h1 : ((a : ℤ) - (b : ℤ)) % (L : ℤ) < (L:ℤ) := Int.emod_lt_of_pos _ h0
  have h2 : (0:ℤ) ≤ ((a : ℤ) - (b : ℤ)) % (L : ℤ) := Int.emod_nonneg _ (by omega)
  omega

theorem pySubMod_of_lt (d L : ℕ) (hd : d < L) : pySubMod d 0 L = d := by
  unfold pySubMod
  simp only [Nat.cast_zero]
  have h : ((d : ℤ) - (0:ℤ)) % (L : ℤ) = (d : ℤ) := by
    rw [sub_zero]
    exact Int.emod_eq_of_lt (by positivity) (by exact_mod_cast hd)
  rw [h]
  exact Int.toNat_natCast d

/-- Redoing a shift: adding b to the modular difference (a - b) % L gives back
a modulo L. -/
theorem pySubMod_add (a b L : ℕ) (hL : 0 < L) :
    (pySubMod a b L + b) % L = a % L := by
  have hLZ : (L:ℤ) ≠ 0 := by exact_mod_cast hL.ne'
  have hnn : (0:ℤ) ≤ ((a:ℤ) - (b:ℤ)) % (L:ℤ) := Int.emod_nonneg _ hLZ
  have hmod : (((a:ℤ) - (b:ℤ)) % (L:ℤ) + (b:ℤ)) % (L:ℤ) = (a:ℤ) % (L:ℤ) := by
    have h1 : ((a:ℤ) - (b:ℤ)) % (L:ℤ) ≡ (a:ℤ) - (b:ℤ) [ZMOD (L:ℤ)] :=
      Int.emod_emod_of_dvd _ dvd_rfl
    have h2 : ((a:ℤ) - (b:ℤ)) % (L:ℤ) + (b:ℤ) ≡ (a:ℤ) - (b:ℤ) + (b:ℤ) [ZMOD (L:ℤ)] :=
      h1.add_right _
    simp only [sub_add_cancel] at h2
    exact h2
  have hcast : (((pySubMod a b L + b) % L : ℕ) : ℤ) = ((a:ℤ) % (L:ℤ)) := by
    push_cast [pySubMod]
    rw [Int.toNat_of_nonneg hnn]
    exact hmod
  have : (((a % L : ℕ)) : ℤ) = (a:ℤ) % (L:ℤ) := by push_cast; rfl
  omega

theorem pySubMod_add_cancel (c b L : ℕ) (hc : c < L) :
    (pySubMod c b L + b) % L = c := by
  rw [pySubMod_add c b L (by omega), Nat.mod_eq_of_lt hc]

/-- Undoing a componentwise shift: subtracting b again from (s + b) % L
recovers s whenever s < L.  This is the per-axis content of the
block-circulant index algebra. -/
theorem pySubMod_addMod (s b L : ℕ) (hs : s < L) :
    pySubMod ((s + b) % L) b L = s := by
  have hL : 0 < L := by omega
  have h1 : (pySubMod ((s + b) % L) b L + b) % L = ((s + b) % L) % L :=
    pySubMod_add _ _ _ hL
  have h2 : ((s + b) % L) % L = (s + b) % L := Nat.mod_mod_of_dvd _ dvd_rfl
  have h3 : (pySubMod ((s + b) % L) b L + b) % L = (s + b) % L := by rw [h1, h2]
  have h4 : pySubMod ((s + b) % L) b L % L = s % L := by
    have := Nat.ModEq.add_right_cancel' b h3
    exact this
  have h5 : pySubMod ((s + b) % L) b L < L := pySubMod_lt _ _ _ hL
  rw [Nat.mod_eq_of_lt h5, Nat.mod_eq_of_lt hs] at h4
  exact h4

theorem flat3_lt (Lx Ly Lz ix iy iz : ℕ) (hx : ix < Lx) (hy : iy < Ly) (hz : iz < Lz) :
    flat3 Ly Lz ix iy iz < Lx * Ly * Lz := by
  unfold flat3
  have h1 : iy * Lz + iz < Ly * Lz := by
    calc iy * Lz + iz < iy * Lz + Lz := by omega
    _ = (iy + 1) * Lz := by ring
    _ ≤ Ly * Lz := Nat.mul_le_mul_right _ (by omega)
  calc ix * (Ly * Lz) + iy * Lz + iz = ix * (Ly * Lz) + (iy * Lz + iz) := by ring
  _ < ix * (Ly * Lz) + Ly * Lz := by omega
  _ = (ix + 1) * (Ly * Lz) := by ring
  _ ≤ Lx * (Ly * Lz) := Nat.mul_le_mul_right _ (by omega)
  _ = Lx * Ly * Lz := by ring

theorem flat3_div (Ly Lz ix iy iz : ℕ) (hy : iy < Ly) (hz : iz < Lz) :
    flat3 Ly Lz ix iy iz / (Ly * Lz) = ix := by
  unfold flat3
  have h1 : iy * Lz + iz < Ly * Lz := by
    calc iy * Lz + iz < iy * Lz + Lz := by omega
    _ = (iy + 1) * Lz := by ring
    _ ≤ Ly * Lz := Nat.mul_le_mul_right _ (by omega)
  have h0 : 0 < Ly * Lz := Nat.mul_pos (by omega) (by omega)
  rw [show ix * (Ly * Lz) + iy * Lz + iz = (Ly * Lz) * ix + (iy * Lz + iz) by ring]
  rw [Nat.mul_add_div h0, Nat.div_eq_of_lt h1]
  omega

theorem flat3_div_mod (Ly Lz ix iy iz : ℕ) (hy : iy < Ly) (hz : iz < Lz) :
    flat3 Ly Lz ix iy iz / Lz % Ly = iy := by
  unfold flat3
  have h0 : 0 < Lz := by omega
  rw [show ix * (Ly * Lz) + iy * Lz + iz = Lz * (ix * Ly + iy) + iz by ring]
  rw [Nat.mul_add_div h0, Nat.div_eq_of_lt hz, Nat.add_zero]
  rw [show ix * Ly + iy = Ly * ix + iy by ring]
  rw [Nat.mul_add_mod, Nat.mod_eq_of_lt hy]

theorem flat3_mod (Ly Lz ix iy iz : ℕ) (hz : iz < Lz) :
    flat3 Ly Lz ix iy iz % Lz = iz := by
  unfold flat3
  rw [show ix * (Ly * Lz) + iy * Lz + iz = Lz * (ix * Ly + iy) + iz by ring]
  rw [Nat.mul_add_mod, Nat.mod_eq_of_lt hz]

/-- Reassembling a flattened triple from its row-major components. -/
theorem flat3_unflat (Ly Lz t : ℕ) :
    flat3 Ly Lz (t / (Ly * Lz)) (t / Lz % Ly) (t % Lz) = t := by
  unfold flat3
  rw [show Ly * Lz = Lz * Ly by ring, ← Nat.div_div_eq_div_mul]
  have h1 : t / Lz / Ly * (Lz * Ly) + t / Lz % Ly * Lz
      = (Ly * (t / Lz / Ly) + t / Lz % Ly) * Lz := by ring
  calc t / Lz / Ly * (Lz * Ly) + t / Lz % Ly * Lz + t % Lz
      = (Ly * (t / Lz / Ly) + t / Lz % Ly) * Lz + t % Lz := by rw [h1]
  _ = t / Lz * Lz + t % Lz := by rw [Nat.div_add_mod]
  _ = Lz * (t / Lz) + t % Lz := by ring_nf
  _ = t := Nat.div_add_mod t Lz

theorem unflat_lt_1 (Lx Ly Lz t : ℕ) (ht : t < Lx * Ly * Lz) (hy : 0 < Ly) (hz : 0 < Lz) :
    t / (Ly * Lz) < Lx := by
  have h0 : 0 < Ly * Lz := by positivity
  rw [Nat.div_lt_iff_lt_mul h0]
  calc t < Lx * Ly * Lz := ht
  _ = Lx * (Ly * Lz) := by ring

theorem unflat_lt_2 (Ly Lz t : ℕ) (hy : 0 < Ly) : t / Lz % Ly < Ly := Nat.mod_lt _ hy

theorem unflat_lt_3 (Lz t : ℕ) (hz : 0 < Lz) : t % Lz < Lz := Nat.mod_lt _ hz

/-- A block row interval determines the block index. -/
theorem block_div_eq (y P a : ℕ) (h1 : y * P ≤ a) (h2 : a < (y + 1) * P) : a / P = y := by
  have hP : 0 < P := by
    by_contra h
    have hP0 : P = 0 := by omega
    subst hP0
    omega
  have hle : y ≤ a / P := (Nat.le_div_iff_mul_le hP).mpr h1
  have hlt : a / P < y + 1 := (Nat.div_lt_iff_lt_mul hP).mpr h2
  omega

theorem block_div (r P p : ℕ) (hp : p < P) : (r * P + p) / P = r := by
  rw [show r * P + p = P * r + p by ring, Nat.mul_add_div (by omega), Nat.div_eq_of_lt hp]
  omega

theorem block_mod (r P p : ℕ) (hp : p < P) : (r * P + p) % P = p := by
  rw [show r * P + p = P * r + p by ring, Nat.mul_add_mod, Nat.mod_eq_of_lt hp]

/-! ### Conditional-write folds

The imperative loops of the source write rectangular slices of numpy arrays in
place.  A loop body that writes the region described by cond x with values
v x is embedded as a fold of conditional updates over the same iteration
range. -/

/-- A matrix is a total function on (row, column) index pairs; out-of-shape
entries are bookkeeping only and never read by the theorems. -/
abbrev Mat := ℕ → ℕ → ℝ

/-- One in-place slice write: entries where cond holds are overwritten with v,
the rest of the array is kept. -/
def updWhere (cond : ℕ → ℕ → Bool) (v : ℕ → ℕ → ℝ) (M : Mat) : Mat :=
  fun a b => if cond a b then v a b else M a b

/-- A loop of slice writes, one per element of the iteration list. -/
def foldWrite (l : List ℕ) (cond : ℕ → ℕ → ℕ → Bool) (v : ℕ → ℕ → ℕ → ℝ) (M0 : Mat) : Mat :=
  l.foldl (fun M x => updWhere (cond x) (v x) M) M0

theorem foldWrite_of_none (l : List ℕ) (cond : ℕ → ℕ → ℕ → Bool) (v : ℕ → ℕ → ℕ → ℝ)
    (M0 : Mat) (a b : ℕ) (h : ∀ x ∈ l, cond x a b = false) :
    foldWrite l cond v M0 a b = M0 a b := by
  induction l generalizing M0 with
  | nil => rfl
  | cons x l ih =>
      have hx : cond x a b = false := h x (List.mem_cons_self x l)
      have hrest : ∀ y ∈ l, cond y a b = false := fun y hy => h y (List.mem_cons_of_mem x hy)
      unfold foldWrite at *
      simp only [List.foldl_cons]
      rw [ih _ hrest]
      simp [updWhere, hx]

theorem foldWrite_of_unique (l : List ℕ) (cond : ℕ → ℕ → ℕ → Bool) (v : ℕ → ℕ → ℕ → ℝ)
    (M0 : Mat) (a b x₀ : ℕ) (hmem : x₀ ∈ l) (hc : cond x₀ a b = true)
    (huniq : ∀ y ∈ l, cond y a b = true → y = x₀) :
    foldWrite l cond v M0 a b = v x₀ a b := by
  induction l generalizing M0 with
  | nil => cases hmem
  | cons x l ih =>
      unfold foldWrite at *
      simp only [List.foldl_cons]
      by_cases hlater : ∃ y ∈ l, cond y a b = true
      · obtain ⟨y, hyl, hcy⟩ := hlater
        have hy0 : y = x₀ := huniq y (List.mem_cons_of_mem x hyl) hcy
        subst hy0
        exact ih _ hyl (fun z hz hcz => huniq z (List.mem_cons_of_mem x hz) hcz)
      · push_neg at hlater
        have hnone : ∀ y ∈ l, cond y a b = false := by
          intro y hy
          have := hlater y hy
          simpa using this
        have hx : x = x₀ := by
          rcases List.mem_cons.mp hmem with h | h
          · exact h.symm
          · exact absurd hc (by simp [hnone x₀ h])
        subst hx
        have hrest := foldWrite_of_none l cond v (updWhere (cond x) (v x) M0) a b hnone
        unfold foldWrite at hrest
        rw [hrest]
        simp [updWhere, hc]

/-! ### Claim C2: block-circulant packing (source function _pack_JK)

In isdf_k.py, _pack_JK takes the primitive-cell block row input_mat of shape
(nao_prim, nao_prim * prod(Ls)) and copies, for every pair of translation
triples (ix_row,iy_row,iz_row) and (ix_col,iy_col,iz_col), the input block at
the componentwise Python difference (i_col - i_row) % Ls into the output block
(loc_row, loc_col).  The six nested loops are embedded as a fold over the
flattened row-block index loc_row; for a fixed loc_row the three inner column
loops together write every column b < ncell * nao_prim exactly once, with the
column block of b determined by b // nao_prim, which is what the condition and
the value function below express entrywise. -/

/-- A matrix together with its allocated numpy shape. -/
structure MatrixN where
  rows : ℕ
  cols : ℕ
  entry : Mat

/-- Output region written by the _pack_JK iteration for row block loc_row:
rows b_begin <= a < b_end, all allocated columns. -/
def packCond (Lx Ly Lz naoP locRow a b : ℕ) : Bool :=
  decide (locRow * naoP ≤ a) && decide (a < (locRow + 1) * naoP)
    && decide (b < Lx * Ly * Lz * naoP)

/-- Value written there: the input entry at row (a - b_begin) and at the
column block loc_col2, the flattened componentwise difference
(col - row) % Ls of the translation triples. -/
def packVal (Lx Ly Lz naoP : ℕ) (input : Mat) (locRow a b : ℕ) : ℝ :=
  input (a - locRow * naoP)
    (flat3 Ly Lz
      (pySubMod (b / naoP / (Ly * Lz)) (locRow / (Ly * Lz)) Lx)
      (pySubMod (b / naoP / Lz % Ly) (locRow / Lz % Ly) Ly)
      (pySubMod (b / naoP % Lz) (locRow % Lz) Lz) * naoP + b % naoP)

/-- Shallow embedding of _pack_JK (isdf_k.py, lines 930-975).  The output is
allocated as np.zeros((ncell * nao_prim, ncell * nao_prim)); each loop
iteration writes output[b_begin:b_end, k_begin:k_end] = input_mat[:, k_begin2:k_end2]
with loc_col2 the flattened componentwise difference (col - row) % Ls. -/
def pack_JK (Lx Ly Lz naoP : ℕ) (input : Mat) : MatrixN :=
  ⟨Lx * Ly * Lz * naoP, Lx * Ly * Lz * naoP,
    foldWrite (List.range (Lx * Ly * Lz))
      (packCond Lx Ly Lz naoP) (packVal Lx Ly Lz naoP input) (fun _ _ => 0)⟩

theorem pack_JK_entry (Lx Ly Lz naoP : ℕ) (input : Mat)
    (rx ry rz cx cy cz p q : ℕ)
    (hrx : rx < Lx) (hry : ry < Ly) (hrz : rz < Lz)
    (hcx : cx < Lx) (hcy : cy < Ly) (hcz : cz < Lz)
    (hp : p < naoP) (hq : q < naoP) :
    (pack_JK Lx Ly Lz naoP input).entry
        (flat3 Ly Lz rx ry rz * naoP + p) (flat3 Ly Lz cx cy cz * naoP + q)
      = input p
          (flat3 Ly Lz (pySubMod cx rx Lx) (pySubMod cy ry Ly) (pySubMod cz rz Lz) * naoP + q) := by
  set R := flat3 Ly Lz rx ry rz with hR
  set C := flat3 Ly Lz cx cy cz with hC
  have hRlt : R < Lx * Ly * Lz := flat3_lt Lx Ly Lz rx ry rz hrx hry hrz
  have hClt : C < Lx * Ly * Lz := flat3_lt Lx Ly Lz cx cy cz hcx hcy hcz
  have hblt : C * naoP + q < Lx * Ly * Lz * naoP := by
    calc C * naoP + q < C * naoP + naoP := by omega
    _ = (C + 1) * naoP := by ring
    _ ≤ Lx * Ly * Lz * naoP := Nat.mul_le_mul_right _ (by omega)
  have hcond : packCond Lx Ly Lz naoP R (R * naoP + p) (C * naoP + q) = true := by
    unfold packCond
    simp only [Bool.and_eq_true, decide_eq_true_eq]
    refine ⟨⟨by omega, ?_⟩, hblt⟩
    calc R * naoP + p < R * naoP + naoP := by omega
    _ = (R + 1) * naoP := by ring
  have huniq : ∀ y ∈ List.range (Lx * Ly * Lz),
      packCond Lx Ly Lz naoP y (R * naoP + p) (C * naoP + q) = true → y = R := by
    intro y _ hy
    unfold packCond at hy
    simp only [Bool.and_eq_true, decide_eq_true_eq] at hy
    have h1 : (R * naoP + p) / naoP = y := block_div_eq y naoP _ hy.1.1 hy.1.2
    have h2 : (R * naoP + p) / naoP = R := block_div R naoP p hp
    omega
  show foldWrite (List.range (Lx * Ly * Lz)) (packCond Lx Ly Lz naoP)
      (packVal Lx Ly Lz naoP input) (fun _ _ => 0) (R * naoP + p) (C * naoP + q) = _
  rw [foldWrite_of_unique _ _ _ _ _ _ R (List.mem_range.mpr hRlt) hcond huniq]
  unfold packVal
  have hdiv : (C * naoP + q) / naoP = C := block_div C naoP q hq
  have hmod : (C * naoP + q) % naoP = q := block_mod C naoP q hq
  rw [hdiv, hmod]
  rw [hR, hC]
  rw [flat3_div Ly Lz cx cy cz hcy hcz, flat3_div Ly Lz rx ry rz hry hrz,
      flat3_div_mod Ly Lz cx cy cz hcy hcz, flat3_div_mod Ly Lz rx ry rz hry hrz,
      flat3_mod Ly Lz cx cy cz hcz, flat3_mod Ly Lz rx ry rz hrz]
  congr 2
  omega

/-- C2.  For every lattice-translation count vector Ls = (Lx,Ly,Lz), every
nao_prim >= 1 and every real input matrix of shape
(nao_prim, nao_prim * prod(Ls)), _pack_JK returns a matrix of shape
(prod(Ls)*nao_prim, prod(Ls)*nao_prim) whose primitive-cell block at block
indices (row, col) equals the input block at the componentwise Python
difference (col - row) % Ls; consequently every packed J/K output satisfies
Block(row, col) == Block(0, (col - row) % kmesh) for every pair of block
indices. -/
theorem pack_JK_block_circulant (Lx Ly Lz naoP : ℕ) (input : Mat)
    (hx : 0 < Lx) (hy : 0 < Ly) (hz : 0 < Lz) (hP : 0 < naoP) :
    (pack_JK Lx Ly Lz naoP input).rows = Lx * Ly * Lz * naoP ∧
    (pack_JK Lx Ly Lz naoP input).cols = Lx * Ly * Lz * naoP ∧
    (∀ rx ry rz cx cy cz p q, rx < Lx → ry < Ly → rz < Lz →
      cx < Lx → cy < Ly → cz < Lz → p < naoP → q < naoP →
      (pack_JK Lx Ly Lz naoP input).entry
          (flat3 Ly Lz rx ry rz * naoP + p) (flat3 Ly Lz cx cy cz * naoP + q)
        = input p
            (flat3 Ly Lz (pySubMod cx rx Lx) (pySubMod cy ry Ly) (pySubMod cz rz Lz) * naoP + q)) ∧
    (∀ rx ry rz cx cy cz p q, rx < Lx → ry < Ly → rz < Lz →
      cx < Lx → cy < Ly → cz < Lz → p < naoP → q < naoP →
      (pack_JK Lx Ly Lz naoP input).entry
          (flat3 Ly Lz rx ry rz * naoP + p) (flat3 Ly Lz cx cy cz * naoP + q)
        = (pack_JK Lx Ly Lz naoP input).entry
            p (flat3 Ly Lz (pySubMod cx rx Lx) (pySubMod cy ry Ly) (pySubMod cz rz Lz) * naoP + q)) := by
  refine ⟨rfl, rfl, ?_, ?_⟩
  · intro rx ry rz cx cy cz p q hrx hry hrz hcx hcy hcz hp hq
    exact pack_JK_entry Lx Ly Lz naoP input rx ry rz cx cy cz p q hrx hry hrz hcx hcy hcz hp hq
  · intro rx ry rz cx cy cz p q hrx hry hrz hcx hcy hcz hp hq
    have hdx : pySubMod cx rx Lx < Lx := pySubMod_lt _ _ _ hx
    have hdy : pySubMod cy ry Ly < Ly := pySubMod_lt _ _ _ hy
    have hdz : pySubMod cz rz Lz < Lz := pySubMod_lt _ _ _ hz
    have h1 := pack_JK_entry Lx Ly Lz naoP input rx ry rz cx cy cz p q
      hrx hry hrz hcx hcy hcz hp hq
    have h0 : flat3 Ly Lz 0 0 0 = 0 := by simp [flat3]
    have h2 := pack_JK_entry Lx Ly Lz naoP input 0 0 0
      (pySubMod cx rx Lx) (pySubMod cy ry Ly) (pySubMod cz rz Lz) p q
      hx hy hz hdx hdy hdz hp hq
    rw [h0] at h2
    simp only [Nat.zero_mul, Nat.zero_add] at h2
    rw [pySubMod_of_lt _ _ hdx, pySubMod_of_lt _ _ hdy, pySubMod_of_lt _ _ hdz] at h2
    rw [h1, h2]

/-- Witness for C2 at the concrete lattice Ls = (1,1,2), nao_prim = 1, zero
input matrix. -/
theorem pack_JK_block_circulant_witness :
    (0:ℕ) < 1 ∧ (0:ℕ) < 2 ∧
    ((pack_JK 1 1 2 1 (fun _ _ => (0:ℝ))).rows = 1 * 1 * 2 * 1 ∧
     (pack_JK 1 1 2 1 (fun _ _ => (0:ℝ))).cols = 1 * 1 * 2 * 1 ∧
     (∀ rx ry rz cx cy cz p q, rx < 1 → ry < 1 → rz < 2 →
       cx < 1 → cy < 1 → cz < 2 → p < 1 → q < 1 →
       (pack_JK 1 1 2 1 (fun _ _ => (0:ℝ))).entry
           (flat3 1 2 rx ry rz * 1 + p) (flat3 1 2 cx cy cz * 1 + q)
         = (fun _ _ => (0:ℝ)) p
             (flat3 1 2 (pySubMod cx rx 1) (pySubMod cy ry 1) (pySubMod cz rz 2) * 1 + q)) ∧
     (∀ rx ry rz cx cy cz p q, rx < 1 → ry < 1 → rz < 2 →
       cx < 1 → cy < 1 → cz < 2 → p < 1 → q < 1 →
       (pack_JK 1 1 2 1 (fun _ _ => (0:ℝ))).entry
           (flat3 1 2 rx ry rz * 1 + p) (flat3 1 2 cx cy cz * 1 + q)
         = (pack_JK 1 1 2 1 (fun _ _ => (0:ℝ))).entry
             p (flat3 1 2 (pySubMod cx rx 1) (pySubMod cy ry 1) (pySubMod cz rz 2) * 1 + q))) :=
  ⟨by decide, by decide,
    pack_JK_block_circulant 1 1 2 1 (fun _ _ => (0:ℝ))
      (by decide) (by decide) (by decide) (by decide)⟩

/-! ### Claims C3 and C8: density-matrix symmetrization (source _symmetrize_dm)
and the k-symmetry J/K driver (source get_jk_dm_kSym)

_symmetrize_dm (isdf_k.py, lines 1399-1444) loops over all shift triples
(i,j,k); for each shift it accumulates the blocks dm[loc_row, loc_col] with
loc_col = (shift + row) % Ls componentwise over all row triples, divides by
ncell, and writes the average back into every block position with that shift.
The outer shift loop is embedded as a fold over the flattened shift index s;
for a fixed s the inner write loop covers exactly the entries (a,b) inside the
allocated ncell*nao_prim square whose column block is tgtBlock s (row block),
each written once.  nao_prim = nao // ncell as in the source. -/

/-- Flattened column block (shift + row) % Ls written by _symmetrize_dm for
flattened shift s and flattened row block r. -/
def tgtBlock (L1 L2 L3 s r : ℕ) : ℕ :=
  flat3 L2 L3 ((s / (L2 * L3) + r / (L2 * L3)) % L1)
              ((s / L3 % L2 + r / L3 % L2) % L2)
              ((s % L3 + r % L3) % L3)

/-- The flattened shift (col - row) % Ls separating two block indices. -/
def shiftOf (L1 L2 L3 R C : ℕ) : ℕ :=
  flat3 L2 L3 (pySubMod (C / (L2 * L3)) (R / (L2 * L3)) L1)
              (pySubMod (C / L3 % L2) (R / L3 % L2) L2)
              (pySubMod (C % L3) (R % L3) L3)

/-- The accumulated and ncell-divided block dm_symmized_buf of _symmetrize_dm
for shift s, at in-block position (p, q). -/
noncomputable def dm_symm_buf (L1 L2 L3 naoP : ℕ) (dm : Mat) (s p q : ℕ) : ℝ :=
  ((List.range (L1 * L2 * L3)).foldl
    (fun acc r => acc + dm (r * naoP + p) (tgtBlock L1 L2 L3 s r * naoP + q)) 0)
    / (L1 * L2 * L3)

/-- Region written by the _symmetrize_dm pass for shift s. -/
def symmCond (L1 L2 L3 naoP s a b : ℕ) : Bool :=
  decide (a < L1 * L2 * L3 * naoP) && decide (b < L1 * L2 * L3 * naoP)
    && decide (b / naoP = tgtBlock L1 L2 L3 s (a / naoP))

/-- Value written there: the shift-s averaged block at the in-block position. -/
noncomputable def symmVal (L1 L2 L3 naoP : ℕ) (dm : Mat) (s a b : ℕ) : ℝ :=
  dm_symm_buf L1 L2 L3 naoP dm s (a % naoP) (b % naoP)

/-- Shallow embedding of _symmetrize_dm; the result array starts as
np.zeros((nao, nao)) and nao_prim is nao // prod(Ls). -/
noncomputable def symmetrize_dm (L1 L2 L3 nao : ℕ) (dm : Mat) : Mat :=
  foldWrite (List.range (L1 * L2 * L3))
    (symmCond L1 L2 L3 (nao / (L1 * L2 * L3)))
    (symmVal L1 L2 L3 (nao / (L1 * L2 * L3)) dm)
    (fun _ _ => 0)

theorem tgtBlock_lt (L1 L2 L3 s r : ℕ) (h1 : 0 < L1) (h2 : 0 < L2) (h3 : 0 < L3) :
    tgtBlock L1 L2 L3 s r < L1 * L2 * L3 :=
  flat3_lt _ _ _ _ _ _ (Nat.mod_lt _ h1) (Nat.mod_lt _ h2) (Nat.mod_lt _ h3)

theorem shiftOf_lt (L1 L2 L3 R C : ℕ) (h1 : 0 < L1) (h2 : 0 < L2) (h3 : 0 < L3) :
    shiftOf L1 L2 L3 R C < L1 * L2 * L3 :=
  flat3_lt _ _ _ _ _ _ (pySubMod_lt _ _ _ h1) (pySubMod_lt _ _ _ h2) (pySubMod_lt _ _ _ h3)

/-- Recovering the shift from a row block and the column block it is sent to. -/
theorem shiftOf_tgtBlock (L1 L2 L3 s r : ℕ) (h1 : 0 < L1) (h2 : 0 < L2) (h3 : 0 < L3)
    (hs : s < L1 * L2 * L3) :
    shiftOf L1 L2 L3 r (tgtBlock L1 L2 L3 s r) = s := by
  have hs1 : s / (L2 * L3) < L1 := unflat_lt_1 L1 L2 L3 s hs h2 h3
  have hs2 : s / L3 % L2 < L2 := Nat.mod_lt _ h2
  have hs3 : s % L3 < L3 := Nat.mod_lt _ h3
  have hm2 : (s / L3 % L2 + r / L3 % L2) % L2 < L2 := Nat.mod_lt _ h2
  have hm3 : (s % L3 + r % L3) % L3 < L3 := Nat.mod_lt _ h3
  unfold shiftOf tgtBlock
  rw [flat3_div _ _ _ _ _ hm2 hm3, flat3_div_mod _ _ _ _ _ hm2 hm3, flat3_mod _ _ _ _ _ hm3]
  rw [pySubMod_addMod _ _ _ hs1, pySubMod_addMod _ _ _ hs2, pySubMod_addMod _ _ _ hs3]
  exact flat3_unflat L2 L3 s

/-- The column block reached from row block R under the shift separating R
from C is C itself. -/
theorem tgtBlock_shiftOf (L1 L2 L3 R C : ℕ) (h1 : 0 < L1) (h2 : 0 < L2) (h3 : 0 < L3)
    (hC : C < L1 * L2 * L3) :
    tgtBlock L1 L2 L3 (shiftOf L1 L2 L3 R C) R = C := by
  have hC1 : C / (L2 * L3) < L1 := unflat_lt_1 L1 L2 L3 C hC h2 h3
  have hC2 : C / L3 % L2 < L2 := Nat.mod_lt _ h2
  have hC3 : C % L3 < L3 := Nat.mod_lt _ h3
  have hd2 : pySubMod (C / L3 % L2) (R / L3 % L2) L2 < L2 := pySubMod_lt _ _ _ h2
  have hd3 : pySubMod (C % L3) (R % L3) L3 < L3 := pySubMod_lt _ _ _ h3
  unfold tgtBlock shiftOf
  rw [flat3_div _ _ _ _ _ hd2 hd3, flat3_div_mod _ _ _ _ _ hd2 hd3, flat3_mod _ _ _ _ _ hd3]
  rw [pySubMod_add_cancel _ _ _ hC1, pySubMod_add_cancel _ _ _ hC2, pySubMod_add_cancel _ _ _ hC3]
  exact flat3_unflat L2 L3 C

theorem foldl_add_eq_sum (n : ℕ) (f : ℕ → ℝ) (x : ℝ) :
    (List.range n).foldl (fun acc i => acc + f i) x = x + ∑ i ∈ Finset.range n, f i := by
  induction n generalizing x with
  | zero => simp
  | succ n ih =>
      rw [List.range_succ, List.foldl_append, ih, Finset.sum_range_succ]
      simp [add_assoc]

/-- Entry formula for the symmetrized density matrix inside the allocated
square: the value is the shift-averaged block for the shift separating the two
block indices. -/
theorem symmetrize_dm_entry (L1 L2 L3 naoP : ℕ) (dm : Mat)
    (h1 : 0 < L1) (h2 : 0 < L2) (h3 : 0 < L3) (hP : 0 < naoP) (a b : ℕ)
    (ha : a < L1 * L2 * L3 * naoP) (hb : b < L1 * L2 * L3 * naoP) :
    symmetrize_dm L1 L2 L3 (L1 * L2 * L3 * naoP) dm a b
      = dm_symm_buf L1 L2 L3 naoP dm
          (shiftOf L1 L2 L3 (a / naoP) (b / naoP)) (a % naoP) (b % naoP) := by
  have hN : 0 < L1 * L2 * L3 := by positivity
  have hquot : (L1 * L2 * L3 * naoP) / (L1 * L2 * L3) = naoP := by
    rw [Nat.mul_div_cancel_left _ hN]
  have hRlt : a / naoP < L1 * L2 * L3 := by
    rw [Nat.div_lt_iff_lt_mul hP]
    calc a < L1 * L2 * L3 * naoP := ha
    _ = L1 * L2 * L3 * naoP := rfl
  have hClt : b / naoP < L1 * L2 * L3 := by
    rw [Nat.div_lt_iff_lt_mul hP]
    exact hb
  set s0 := shiftOf L1 L2 L3 (a / naoP) (b / naoP) with hs0
  have hs0lt : s0 < L1 * L2 * L3 := shiftOf_lt _ _ _ _ _ h1 h2 h3
  have hcond : symmCond L1 L2 L3 naoP s0 a b = true := by
    unfold symmCond
    simp only [Bool.and_eq_true, decide_eq_true_eq]
    exact ⟨⟨ha, hb⟩, (tgtBlock_shiftOf L1 L2 L3 _ _ h1 h2 h3 hClt).symm⟩
  have huniq : ∀ y ∈ List.range (L1 * L2 * L3), symmCond L1 L2 L3 naoP y a b = true → y = s0 := by
    intro y hy hcy
    unfold symmCond at hcy
    simp only [Bool.and_eq_true, decide_eq_true_eq] at hcy
    have hylt : y < L1 * L2 * L3 := List.mem_range.mp hy
    have := shiftOf_tgtBlock L1 L2 L3 y (a / naoP) h1 h2 h3 hylt
    rw [← hcy.2] at this
    rw [hs0, ← this]
  unfold symmetrize_dm
  rw [hquot]
  rw [foldWrite_of_unique _ _ _ _ _ _ s0 (List.mem_range.mpr hs0lt) hcond huniq]
  rfl

/-- Outside the allocated ncell*nao_prim square the symmetrized matrix keeps
its np.zeros initialization. -/
theorem symmetrize_dm_entry_outside (L1 L2 L3 naoP : ℕ) (dm : Mat) (a b : ℕ)
    (h : ¬ (a < L1 * L2 * L3 * naoP ∧ b < L1 * L2 * L3 * naoP)) :
    symmetrize_dm L1 L2 L3 (L1 * L2 * L3 * naoP) dm a b = 0 := by
  by_cases hN : 0 < L1 * L2 * L3
  · have hquot : (L1 * L2 * L3 * naoP) / (L1 * L2 * L3) = naoP := by
      rw [Nat.mul_div_cancel_left _ hN]
    unfold symmetrize_dm
    rw [hquot]
    rw [foldWrite_of_none]
    intro y _
    unfold symmCond
    simp only [Bool.and_eq_true, decide_eq_true_eq, Bool.and_eq_false_iff]
    by_cases hA : a < L1 * L2 * L3 * naoP
    · left
      simp only [decide_eq_false_iff_not]
      right
      intro hB
      exact h ⟨hA, hB⟩
    · left
      simp only [decide_eq_false_iff_not]
      left
      exact hA
  · unfold symmetrize_dm
    have hz : L1 * L2 * L3 = 0 := by omega
    rw [hz]
    rfl

/-- Sum form of the averaged block. -/
theorem dm_symm_buf_eq_sum (L1 L2 L3 naoP : ℕ) (dm : Mat) (s p q : ℕ) :
    dm_symm_buf L1 L2 L3 naoP dm s p q
      = (∑ r ∈ Finset.range (L1 * L2 * L3),
          dm (r * naoP + p) (tgtBlock L1 L2 L3 s r * naoP + q)) / (L1 * L2 * L3) := by
  unfold dm_symm_buf
  rw [foldl_add_eq_sum]
  rw [zero_add]
/-- Python exception kinds raised by the driver code. -/
inductive PyErr where
  | assertionError : PyErr
  | notImplementedError : PyErr
deriving DecidableEq

/-- A k-point, three rational coordinates. -/
abbrev Kpt := ℚ × ℚ × ℚ

def kAbsSum (k : Kpt) : ℚ := |k.1| + |k.2.1| + |k.2.2|

def kSub (x y : Kpt) : Kpt := (x.1 - y.1, x.2.1 - y.2.1, x.2.2 - y.2.2)

/-- The kpts_band guard of get_jk_dm_kSym: kpts_band is not None and
abs(kpt - kpts_band).sum() > 1e-9. -/
def kptsBandMismatch (kpt : Kpt) : Option Kpt → Bool
  | none => false
  | some kb => decide ((1:ℚ)/1000000000 < kAbsSum (kSub kpt kb))

/-- Modelled from the spec: gamma_point comes from the external collaborator
pyscf.pbc.lib.kpts_helper (not under src/); a k-point within the library
tolerance 1e-9 of the origin counts as the Gamma point.  Only
gamma_point 0 = true matters to the claims below. -/
def gamma_point (k : Kpt) : Bool := decide (kAbsSum k < (1:ℚ)/1000000000)

/-- The dm argument of get_jk_dm_kSym: either a single matrix or a 3-index
stack of matrices. -/
inductive DMInput where
  | two (dm : Mat) : DMInput
  | three (dms : List Mat) : DMInput

/-- Body of get_jk_dm_kSym (isdf_k.py, lines 1446-1532) after the dm unwrap:
assert with_j and with_k, reject kpts_band far from kpt with
NotImplementedError, assert the Gamma point, symmetrize the density matrix,
then dispatch on the outcore / robust-fitting flags; the incore
non-robust branch contracts J and K from the symmetrized matrix.  The J and K
contractions themselves (_get_j_kSym / _get_k_kSym, which call the libpbc FFT
kernels) are abstracted as function parameters getJ and getK. -/
noncomputable def get_jk_core (outcore robust withJ withK : Bool) (kpt : Kpt)
    (kpts_band : Option Kpt) (L1 L2 L3 nao : ℕ) (getJ getK : Mat → Mat) (dm : Mat) :
    Except PyErr (Mat × Mat) :=
  if ¬ (withJ = true ∧ withK = true) then .error .assertionError
  else if kptsBandMismatch kpt kpts_band then .error .notImplementedError
  else if ¬ (gamma_point kpt = true) then .error .assertionError
  else
    let dm1 := symmetrize_dm L1 L2 L3 nao dm
    if outcore = true ∧ robust = true then .error .notImplementedError
    else if robust = true then .error .notImplementedError
    else .ok (getJ dm1, getK dm1)

/-- Shallow embedding of get_jk_dm_kSym: a 3-index dm is accepted only with a
leading dimension of one and is unwrapped to its single matrix before
anything else. -/
noncomputable def get_jk_dm_kSym (outcore robust withJ withK : Bool) (kpt : Kpt)
    (kpts_band : Option Kpt) (L1 L2 L3 nao : ℕ) (getJ getK : Mat → Mat) :
    DMInput → Except PyErr (Mat × Mat)
  | .two dm => get_jk_core outcore robust withJ withK kpt kpts_band L1 L2 L3 nao getJ getK dm
  | .three dms =>
      if dms.length = 1 then
        get_jk_core outcore robust withJ withK kpt kpts_band L1 L2 L3 nao getJ getK dms.headI
      else .error .assertionError

/-- C3.  get_jk_dm_kSym replaces the density matrix by _symmetrize_dm(dm, Ls)
before any J/K contraction: for the incore non-robust configuration at the
Gamma point the result is exactly (getJ dm1, getK dm1) with
dm1 = _symmetrize_dm(dm, Ls).  Moreover _symmetrize_dm computes the average
over all lattice cyclic shifts: for a square dm whose dimension
nao = prod(Ls) * nao_prim is divisible by prod(Ls), the output block at block
offset (row, col) is 1/prod(Ls) times the sum over block rows r of the input
blocks at (r, r + (col - row) mod Ls), so the output depends only on the
translation difference of its block indices. -/
theorem get_jk_symmetrizes_first (L1 L2 L3 naoP : ℕ) (outcore : Bool)
    (dm : Mat) (getJ getK : Mat → Mat)
    (h1 : 0 < L1) (h2 : 0 < L2) (h3 : 0 < L3) (hP : 0 < naoP) :
    (get_jk_dm_kSym outcore false true true ((0:ℚ),(0:ℚ),(0:ℚ)) none L1 L2 L3
        (L1 * L2 * L3 * naoP) getJ getK (.two dm)
      = .ok (getJ (symmetrize_dm L1 L2 L3 (L1 * L2 * L3 * naoP) dm),
             getK (symmetrize_dm L1 L2 L3 (L1 * L2 * L3 * naoP) dm)))
    ∧ (∀ a b, a < L1 * L2 * L3 * naoP → b < L1 * L2 * L3 * naoP →
        symmetrize_dm L1 L2 L3 (L1 * L2 * L3 * naoP) dm a b
          = (∑ r ∈ Finset.range (L1 * L2 * L3),
              dm (r * naoP + a % naoP)
                 (tgtBlock L1 L2 L3 (shiftOf L1 L2 L3 (a / naoP) (b / naoP)) r * naoP
                   + b % naoP))
            / (L1 * L2 * L3))
    ∧ (∀ a b a2 b2, a < L1 * L2 * L3 * naoP → b < L1 * L2 * L3 * naoP →
        a2 < L1 * L2 * L3 * naoP → b2 < L1 * L2 * L3 * naoP →
        shiftOf L1 L2 L3 (a / naoP) (b / naoP) = shiftOf L1 L2 L3 (a2 / naoP) (b2 / naoP) →
        a % naoP = a2 % naoP → b % naoP = b2 % naoP →
        symmetrize_dm L1 L2 L3 (L1 * L2 * L3 * naoP) dm a b
          = symmetrize_dm L1 L2 L3 (L1 * L2 * L3 * naoP) dm a2 b2) := by
  refine ⟨?_, ?_, ?_⟩
  · show get_jk_core outcore false true true ((0:ℚ),(0:ℚ),(0:ℚ)) none L1 L2 L3
        (L1 * L2 * L3 * naoP) getJ getK dm = _
    unfold get_jk_core
    have hgamma : gamma_point ((0:ℚ),(0:ℚ),(0:ℚ)) = true := by
      unfold gamma_point kAbsSum
      norm_num
    rw [hgamma]
    simp [kptsBandMismatch]
  · intro a b ha hb
    rw [symmetrize_dm_entry L1 L2 L3 naoP dm h1 h2 h3 hP a b ha hb,
        dm_symm_buf_eq_sum]
  · intro a b a2 b2 ha hb ha2 hb2 hsh hmp hmq
    rw [symmetrize_dm_entry L1 L2 L3 naoP dm h1 h2 h3 hP a b ha hb,
        symmetrize_dm_entry L1 L2 L3 naoP dm h1 h2 h3 hP a2 b2 ha2 hb2,
        hsh, hmp, hmq]

/-- Witness for C3 at Ls = (1,1,2), nao_prim = 1, the zero density matrix and
identity contractions. -/
theorem get_jk_symmetrizes_first_witness :
    (0:ℕ) < 1 ∧ (0:ℕ) < 2 ∧
    (get_jk_dm_kSym false false true true ((0:ℚ),(0:ℚ),(0:ℚ)) none 1 1 2
        (1 * 1 * 2 * 1) id id (.two (fun _ _ => (0:ℝ)))
      = .ok (id (symmetrize_dm 1 1 2 (1 * 1 * 2 * 1) (fun _ _ => (0:ℝ))),
             id (symmetrize_dm 1 1 2 (1 * 1 * 2 * 1) (fun _ _ => (0:ℝ))))) :=
  ⟨by decide, by decide,
    (get_jk_symmetrizes_first 1 1 2 1 false (fun _ _ => (0:ℝ)) id id
      (by decide) (by decide) (by decide) (by decide)).1⟩

/-- C8.  _symmetrize_dm is idempotent: applying it twice to a square density
matrix whose dimension is divisible by prod(Ls) gives the same result as
applying it once; a matrix that is already block-circulant under the lattice
translation group is left unchanged by the second pass. -/
theorem symmetrize_dm_idempotent (L1 L2 L3 naoP : ℕ) (dm : Mat)
    (h1 : 0 < L1) (h2 : 0 < L2) (h3 : 0 < L3) (hP : 0 < naoP) :
    ∀ a b,
      symmetrize_dm L1 L2 L3 (L1 * L2 * L3 * naoP)
          (symmetrize_dm L1 L2 L3 (L1 * L2 * L3 * naoP) dm) a b
        = symmetrize_dm L1 L2 L3 (L1 * L2 * L3 * naoP) dm a b := by
  intro a b
  by_cases hin : a < L1 * L2 * L3 * naoP ∧ b < L1 * L2 * L3 * naoP
  · obtain ⟨ha, hb⟩ := hin
    set N := L1 * L2 * L3 with hN
    have hNpos : 0 < N := by positivity
    set s0 := shiftOf L1 L2 L3 (a / naoP) (b / naoP) with hs0
    have hs0lt : s0 < N := shiftOf_lt _ _ _ _ _ h1 h2 h3
    rw [symmetrize_dm_entry L1 L2 L3 naoP _ h1 h2 h3 hP a b ha hb,
        symmetrize_dm_entry L1 L2 L3 naoP dm h1 h2 h3 hP a b ha hb]
    rw [dm_symm_buf_eq_sum, dm_symm_buf_eq_sum]
    have hinner : ∀ r ∈ Finset.range N,
        symmetrize_dm L1 L2 L3 (N * naoP) dm (r * naoP + a % naoP)
            (tgtBlock L1 L2 L3 s0 r * naoP + b % naoP)
          = (∑ r2 ∈ Finset.range N,
              dm (r2 * naoP + a % naoP) (tgtBlock L1 L2 L3 s0 r2 * naoP + b % naoP)) / N := by
      intro r hr
      have hrlt : r < N := Finset.mem_range.mp hr
      have hplt : a % naoP < naoP := Nat.mod_lt _ hP
      have hqlt : b % naoP < naoP := Nat.mod_lt _ hP
      have htlt : tgtBlock L1 L2 L3 s0 r < N := tgtBlock_lt _ _ _ _ _ h1 h2 h3
      have hargA : r * naoP + a % naoP < N * naoP := by
        calc r * naoP + a % naoP < r * naoP + naoP := by omega
        _ = (r + 1) * naoP := by ring
        _ ≤ N * naoP := Nat.mul_le_mul_right _ (by omega)
      have hargB : tgtBlock L1 L2 L3 s0 r * naoP + b % naoP < N * naoP := by
        calc tgtBlock L1 L2 L3 s0 r * naoP + b % naoP
            < tgtBlock L1 L2 L3 s0 r * naoP + naoP := by omega
        _ = (tgtBlock L1 L2 L3 s0 r + 1) * naoP := by ring
        _ ≤ N * naoP := Nat.mul_le_mul_right _ (by omega)
      rw [symmetrize_dm_entry L1 L2 L3 naoP dm h1 h2 h3 hP _ _ hargA hargB]
      rw [block_div _ _ _ hplt, block_div _ _ _ hqlt, block_mod _ _ _ hplt,
          block_mod _ _ _ hqlt]
      rw [shiftOf_tgtBlock L1 L2 L3 s0 r h1 h2 h3 hs0lt]
      rw [dm_symm_buf_eq_sum, hN]
      push_cast
      ring
    rw [Finset.sum_congr rfl hinner]
    rw [Finset.sum_const, Finset.card_range]
    have hNne : ((N:ℝ)) ≠ 0 := by positivity
    rw [nsmul_eq_mul]
    field_simp
  · rw [symmetrize_dm_entry_outside _ _ _ _ _ _ _ hin,
        symmetrize_dm_entry_outside _ _ _ _ _ _ _ hin]

/-- Witness for C8 at Ls = (1,1,2), nao_prim = 1, the constant-one density
matrix. -/
theorem symmetrize_dm_idempotent_witness :
    (0:ℕ) < 1 ∧ (0:ℕ) < 2 ∧
    (∀ a b,
      symmetrize_dm 1 1 2 (1 * 1 * 2 * 1)
          (symmetrize_dm 1 1 2 (1 * 1 * 2 * 1) (fun _ _ => (1:ℝ))) a b
        = symmetrize_dm 1 1 2 (1 * 1 * 2 * 1) (fun _ _ => (1:ℝ)) a b) :=
  ⟨by decide, by decide,
    symmetrize_dm_idempotent 1 1 2 1 (fun _ _ => (1:ℝ))
      (by decide) (by decide) (by decide) (by decide)⟩
/-! ### Claim C10: guards of the k-symmetry J/K driver -/

/-- C10.  get_jk_dm_kSym computes a result only when both with_j and with_k
are requested and the density matrix is a single matrix: a 3-index dm is
accepted only with leading dimension 1 and is unwrapped; any call violating
these conditions fails before any contraction is performed (the result does
not depend on the contraction functions getJ, getK), and a kpts_band that
differs from kpt by more than the library tolerance raises
NotImplementedError. -/
theorem get_jk_dm_kSym_guards (outcore robust withJ withK : Bool) (kpt : Kpt)
    (kpts_band : Option Kpt) (L1 L2 L3 nao : ℕ) :
    (∀ (dms : List Mat) (getJ getK : Mat → Mat), dms.length ≠ 1 →
      get_jk_dm_kSym outcore robust withJ withK kpt kpts_band L1 L2 L3 nao getJ getK
          (.three dms)
        = .error .assertionError)
    ∧ (∀ (dms : List Mat) (getJ getK : Mat → Mat), dms.length = 1 →
      get_jk_dm_kSym outcore robust withJ withK kpt kpts_band L1 L2 L3 nao getJ getK
          (.three dms)
        = get_jk_dm_kSym outcore robust withJ withK kpt kpts_band L1 L2 L3 nao getJ getK
            (.two dms.headI))
    ∧ (∀ (dmIn : DMInput) (getJ getK : Mat → Mat), ¬ (withJ = true ∧ withK = true) →
      get_jk_dm_kSym outcore robust withJ withK kpt kpts_band L1 L2 L3 nao getJ getK dmIn
        = .error .assertionError
        ∨ (∃ dms, dmIn = .three dms ∧ dms.length ≠ 1))
    ∧ (∀ (dm : Mat) (getJ getK : Mat → Mat) (kb : Kpt), kpts_band = some kb →
      (1:ℚ)/1000000000 < kAbsSum (kSub kpt kb) → withJ = true → withK = true →
      get_jk_dm_kSym outcore robust withJ withK kpt kpts_band L1 L2 L3 nao getJ getK
          (.two dm)
        = .error .notImplementedError)
    ∧ (∀ (dmIn : DMInput) (getJ getK : Mat → Mat) (jk : Mat × Mat),
      get_jk_dm_kSym outcore robust withJ withK kpt kpts_band L1 L2 L3 nao getJ getK dmIn
          = .ok jk →
      withJ = true ∧ withK = true ∧ ∀ dms, dmIn = .three dms → dms.length = 1) := by
  refine ⟨?_, ?_, ?_, ?_, ?_⟩
  · intro dms getJ getK hlen
    unfold get_jk_dm_kSym
    simp [hlen]
  · intro dms getJ getK hlen
    unfold get_jk_dm_kSym
    simp [hlen]
  · intro dmIn getJ getK hjk
    cases dmIn with
    | two dm =>
        left
        unfold get_jk_dm_kSym get_jk_core
        simp [hjk]
    | three dms =>
        by_cases hlen : dms.length = 1
        · left
          unfold get_jk_dm_kSym get_jk_core
          simp [hlen, hjk]
        · right
          exact ⟨dms, rfl, hlen⟩
  · intro dm getJ getK kb hkb hfar hJ hK
    subst hkb hJ hK
    unfold get_jk_dm_kSym get_jk_core
    have hmm : kptsBandMismatch kpt (some kb) = true := by
      unfold kptsBandMismatch
      exact decide_eq_true hfar
    simp [hmm]
  · intro dmIn getJ getK jk hok
    have hcore : ∀ dm, get_jk_core outcore robust withJ withK kpt kpts_band L1 L2 L3 nao
        getJ getK dm = .ok jk → withJ = true ∧ withK = true := by
      intro dm h
      unfold get_jk_core at h
      by_cases hjk : withJ = true ∧ withK = true
      · exact hjk
      · simp [hjk] at h
    cases dmIn with
    | two dm =>
        refine ⟨(hcore dm hok).1, (hcore dm hok).2, ?_⟩
        intro dms hcontr
        cases hcontr
    | three dms =>
        by_cases hlen : dms.length = 1
        · simp only [get_jk_dm_kSym] at hok
          rw [if_pos hlen] at hok
          refine ⟨(hcore _ hok).1, (hcore _ hok).2, ?_⟩
          intro dms2 heq
          cases heq
          exact hlen
        · simp only [get_jk_dm_kSym] at hok
          rw [if_neg hlen] at hok
          cases hok

/-- Witness for C10 at a concrete configuration. -/
theorem get_jk_dm_kSym_guards_witness :
    ∀ (dms : List Mat) (getJ getK : Mat → Mat), dms.length ≠ 1 →
      get_jk_dm_kSym false false true true ((0:ℚ),(0:ℚ),(0:ℚ)) none 1 1 2 2 getJ getK
          (.three dms)
        = .error .assertionError :=
  (get_jk_dm_kSym_guards false false true true ((0:ℚ),(0:ℚ),(0:ℚ)) none 1 1 2 2).1
/-! ### Claim C5: primitive-cell IP set of PBC_ISDF_Info_kSym.select_IP

select_IP (isdf_k.py, lines 1658-1733) maps every selected supercell grid
point to its primitive-cell ravel index (unravel the grid id over the
supercell mesh, reduce each component modulo the primitive mesh
mesh_prim = mesh // Ls, ravel over mesh_prim), then deduplicates with
list(set(...)) and sorts in place; the sorted list of distinct primitive-cell
ids is returned. -/

/-- Primitive-cell ravel index of a supercell grid id, as computed inside
select_IP: pnt_id from the supercell mesh, pnt_prim_id = pnt_id % mesh_prim,
ravelled over mesh_prim = mesh // Ls. -/
def primRavel (m1 m2 m3 L1 L2 L3 g : ℕ) : ℕ :=
  flat3 (m2 / L2) (m3 / L3)
    (g / (m2 * m3) % (m1 / L1)) (g / m3 % m2 % (m2 / L2)) (g % m3 % (m3 / L3))

/-- The sorted deduplicated primitive-cell id list returned by select_IP;
list(set(...)) followed by .sort() is the sorted list of distinct values. -/
def select_IP_primIDs (m1 m2 m3 L1 L2 L3 : ℕ) (IP_GlobalID : List ℕ) : List ℕ :=
  List.insertionSort (· ≤ ·) ((IP_GlobalID.map (primRavel m1 m2 m3 L1 L2 L3)).dedup)

/-- C5.  The primitive-cell IP set returned by select_IP is strictly
increasing (sorted with no duplicates); it contains exactly the primitive-cell
ravel indices of the selected supercell grid points, and grid points that are
translation images of the same primitive-cell point contribute exactly one
entry. -/
theorem select_IP_primIDs_sorted_dedup (m1 m2 m3 L1 L2 L3 : ℕ) (IP_GlobalID : List ℕ) :
    List.Sorted (· < ·) (select_IP_primIDs m1 m2 m3 L1 L2 L3 IP_GlobalID)
    ∧ (∀ ip, ip ∈ select_IP_primIDs m1 m2 m3 L1 L2 L3 IP_GlobalID
        ↔ ∃ g ∈ IP_GlobalID, primRavel m1 m2 m3 L1 L2 L3 g = ip)
    ∧ (∀ ip, (select_IP_primIDs m1 m2 m3 L1 L2 L3 IP_GlobalID).count ip ≤ 1) := by
  have hperm : (select_IP_primIDs m1 m2 m3 L1 L2 L3 IP_GlobalID).Perm
      ((IP_GlobalID.map (primRavel m1 m2 m3 L1 L2 L3)).dedup) :=
    List.perm_insertionSort _ _
  have hnodupDedup : ((IP_GlobalID.map (primRavel m1 m2 m3 L1 L2 L3)).dedup).Nodup :=
    List.nodup_dedup _
  have hnodup : (select_IP_primIDs m1 m2 m3 L1 L2 L3 IP_GlobalID).Nodup :=
    hperm.nodup_iff.mpr hnodupDedup
  have hsortedLe : List.Sorted (· ≤ ·) (select_IP_primIDs m1 m2 m3 L1 L2 L3 IP_GlobalID) :=
    List.sorted_insertionSort _ _
  refine ⟨hsortedLe.lt_of_le hnodup, ?_, ?_⟩
  · intro ip
    rw [hperm.mem_iff, List.mem_dedup, List.mem_map]
  · intro ip
    exact List.nodup_iff_count_le_one.mp hnodup ip

/-! ### Claim C6: zero-momentum block W0 (source _construct_W_incore) and its
use in the J build (source _get_j_kSym)

After assembling mydf.W of shape (nIP_prim, nIP_prim * ncell),
_construct_W_incore (isdf_k.py, lines 863-874) accumulates
W0 += W[:, i*nIP_prim:(i+1)*nIP_prim] over all cell indices i into a zeroed
(nIP_prim, nIP_prim) array and caches it as mydf.W0.  _get_j_kSym
(lines 1064-1069) then contracts exactly this cached W0 with the IP-projected
density: lib.ddot(W_0, density_Rg.reshape(-1,1), c=bufferW). -/

/-- The W0 accumulation loop of _construct_W_incore. -/
def W0_incore (ncell nIP : ℕ) (W : Mat) : Mat :=
  (List.range ncell).foldl
    (fun W0 i => fun r c => W0 r c + W r (i * nIP + c)) (fun _ _ => 0)

/-- The J-build contraction bufferW = ddot(W0, density_Rg) of _get_j_kSym,
with W_0 taken from the cached mydf.W0. -/
noncomputable def get_j_bufferW (ncell nIP : ℕ) (W : Mat) (densityRg : ℕ → ℝ) : ℕ → ℝ :=
  fun r => ∑ c ∈ Finset.range nIP, W0_incore ncell nIP W r c * densityRg c

/-- Pointwise evaluation of the W0 accumulation loop. -/
theorem W0_incore_eval (ncell nIP : ℕ) (W : Mat) (r c : ℕ) :
    W0_incore ncell nIP W r c
      = (List.range ncell).foldl (fun acc i => acc + W r (i * nIP + c)) 0 := by
  unfold W0_incore
  generalize hM : (fun _ _ => (0:ℝ)) = M0
  have hM0 : M0 r c = 0 := by rw [← hM]
  rw [show (0:ℝ) = M0 r c from hM0.symm]
  clear hM hM0
  induction (List.range ncell) generalizing M0 with
  | nil => rfl
  | cons x l ih => exact ih _

/-- C6.  After _construct_W_incore completes, the cached zero-momentum block
satisfies W0 == sum over all cell indices i of the column block
W[:, i*nIP_prim : (i+1)*nIP_prim], and it is this W0 (not the full W) that is
contracted with the IP-projected density in the J build. -/
theorem W0_incore_spec (ncell nIP : ℕ) (W : Mat) (densityRg : ℕ → ℝ) :
    (∀ r c, W0_incore ncell nIP W r c = ∑ i ∈ Finset.range ncell, W r (i * nIP + c))
    ∧ (∀ r, get_j_bufferW ncell nIP W densityRg r
        = ∑ c ∈ Finset.range nIP,
            (∑ i ∈ Finset.range ncell, W r (i * nIP + c)) * densityRg c) := by
  have hW0 : ∀ r c, W0_incore ncell nIP W r c
      = ∑ i ∈ Finset.range ncell, W r (i * nIP + c) := by
    intro r c
    rw [W0_incore_eval, foldl_add_eq_sum, zero_add]
  refine ⟨hW0, ?_⟩
  intro r
  unfold get_j_bufferW
  refine Finset.sum_congr rfl ?_
  intro c _
  rw [hW0]
/-! ### Claim C7: eager mesh/Ls divisibility checks at construction

PBC_ISDF_Info_kSym.__init__ (isdf_k.py, lines 1534-1558) asserts, right after
the superclass setup and before extracting the primitive-cell grid and
evaluating orbitals on it, that every supercell mesh component is exactly
divisible by the corresponding lattice-translation count; the heavy steps
(grid extraction, orbital evaluation, and the later IP / aux-basis / W
builds, which are separate method calls on the constructed object) happen
only on the success path.  PBC_ISDF_Info_Quad_K.__init__
(isdf_linear_scaling_k.py, lines 361-391) asserts the same divisibility
before building the primitive cell.  The heavy steps are abstracted as
function parameters, so the failure result is by construction independent of
them. -/

/-- Shallow embedding of PBC_ISDF_Info_kSym.__init__: assert
with_robust_fitting == False, assert mesh % Ls == 0 componentwise, then
extract the ordered primitive-cell grid and (in the incore case) evaluate
aoR on it. -/
def kSym_init {G A : Type} (mesh Ls : ℕ × ℕ × ℕ) (robust outcore : Bool)
    (extractGrid : ℕ × ℕ × ℕ → ℕ × ℕ × ℕ → G) (evalAoR : G → A) :
    Except PyErr (G × Option A) :=
  if robust = true then .error .assertionError
  else if ¬ (mesh.1 % Ls.1 = 0) then .error .assertionError
  else if ¬ (mesh.2.1 % Ls.2.1 = 0) then .error .assertionError
  else if ¬ (mesh.2.2 % Ls.2.2 = 0) then .error .assertionError
  else
    let g := extractGrid mesh Ls
    .ok (g, if outcore = true then none else some (evalAoR g))

/-- Shallow embedding of PBC_ISDF_Info_Quad_K.__init__: assert
mesh % Ls == 0 componentwise, then compute meshPrim = mesh // Ls and build
the primitive cell. -/
def quadK_init {P : Type} (mesh Ls : ℕ × ℕ × ℕ) (buildPrimCell : ℕ × ℕ × ℕ → P) :
    Except PyErr (P × (ℕ × ℕ × ℕ)) :=
  if ¬ (mesh.1 % Ls.1 = 0) then .error .assertionError
  else if ¬ (mesh.2.1 % Ls.2.1 = 0) then .error .assertionError
  else if ¬ (mesh.2.2 % Ls.2.2 = 0) then .error .assertionError
  else .ok (buildPrimCell Ls, (mesh.1 / Ls.1, mesh.2.1 / Ls.2.1, mesh.2.2 / Ls.2.2))

/-- C7.  Construction of a k-symmetry ISDF object fails eagerly, before any
heavy computation (the error result does not depend on the grid-extraction,
orbital-evaluation or primitive-cell-build steps), whenever any component of
the supercell mesh is not exactly divisible by the corresponding
lattice-translation count; when all three components divide exactly,
construction proceeds and performs those steps. -/
theorem ksym_init_divisibility (mesh Ls : ℕ × ℕ × ℕ) (G A P : Type) :
    ((mesh.1 % Ls.1 ≠ 0 ∨ mesh.2.1 % Ls.2.1 ≠ 0 ∨ mesh.2.2 % Ls.2.2 ≠ 0) →
      (∀ (outcore : Bool) (extractGrid : ℕ × ℕ × ℕ → ℕ × ℕ × ℕ → G) (evalAoR : G → A),
        kSym_init mesh Ls false outcore extractGrid evalAoR = .error .assertionError)
      ∧ (∀ buildPrimCell : ℕ × ℕ × ℕ → P,
        quadK_init mesh Ls buildPrimCell = .error .assertionError))
    ∧ ((mesh.1 % Ls.1 = 0 ∧ mesh.2.1 % Ls.2.1 = 0 ∧ mesh.2.2 % Ls.2.2 = 0) →
      (∀ (outcore : Bool) (extractGrid : ℕ × ℕ × ℕ → ℕ × ℕ × ℕ → G) (evalAoR : G → A),
        kSym_init mesh Ls false outcore extractGrid evalAoR
          = .ok (extractGrid mesh Ls,
              if outcore = true then none else some (evalAoR (extractGrid mesh Ls))))
      ∧ (∀ buildPrimCell : ℕ × ℕ × ℕ → P,
        quadK_init mesh Ls buildPrimCell
          = .ok (buildPrimCell Ls, (mesh.1 / Ls.1, mesh.2.1 / Ls.2.1, mesh.2.2 / Ls.2.2)))) := by
  constructor
  · intro hbad
    constructor
    · intro outcore extractGrid evalAoR
      unfold kSym_init
      rcases hbad with h | h | h
      · simp [h]
      · by_cases h1 : mesh.1 % Ls.1 = 0 <;> simp [h1, h]
      · by_cases h1 : mesh.1 % Ls.1 = 0 <;> by_cases h2 : mesh.2.1 % Ls.2.1 = 0 <;>
          simp [h1, h2, h]
    · intro buildPrimCell
      unfold quadK_init
      rcases hbad with h | h | h
      · simp [h]
      · by_cases h1 : mesh.1 % Ls.1 = 0 <;> simp [h1, h]
      · by_cases h1 : mesh.1 % Ls.1 = 0 <;> by_cases h2 : mesh.2.1 % Ls.2.1 = 0 <;>
          simp [h1, h2, h]
  · rintro ⟨h1, h2, h3⟩
    constructor
    · intro outcore extractGrid evalAoR
      unfold kSym_init
      simp [h1, h2, h3]
    · intro buildPrimCell
      unfold quadK_init
      simp [h1, h2, h3]

/-- Witness for C7 at mesh (4,4,6), Ls (1,1,2) (divisible) on trivial heavy
steps. -/
theorem ksym_init_divisibility_witness :
    ((4:ℕ) % 1 = 0 ∧ (4:ℕ) % 1 = 0 ∧ (6:ℕ) % 2 = 0) ∧
    kSym_init ((4,4,6) : ℕ × ℕ × ℕ) ((1,1,2) : ℕ × ℕ × ℕ) false false
        (fun m l => (m, l)) (fun g => g)
      = .ok (((4,4,6), (1,1,2)), some ((4,4,6), (1,1,2))) := by
  constructor
  · exact ⟨by decide, by decide, by decide⟩
  · have h := ((ksym_init_divisibility ((4,4,6) : ℕ × ℕ × ℕ) ((1,1,2) : ℕ × ℕ × ℕ)
      ((ℕ × ℕ × ℕ) × (ℕ × ℕ × ℕ)) ((ℕ × ℕ × ℕ) × (ℕ × ℕ × ℕ)) Unit).2
      ⟨by decide, by decide, by decide⟩).1 false (fun m l => (m, l)) (fun g => g)
    simpa using h
/-! ### Claim C9: the index map built by the inner helper _permutation of
_construct_aux_basis_kSym

_permutation(nx, ny, nz, shift_x, shift_y, shift_z) (isdf_k.py, lines
597-613) visits the triples (ix, iy, iz) in row-major order, so the running
counter loc_now equals ix*ny*nz + iy*nz + iz, and writes
res[loc] = loc_now with loc the flattened image of the componentwise map
x -> (n - x - shift) % n.  The triple loop is embedded as a fold over the
flattened counter with the components recovered by div/mod. -/

/-- The per-axis index map (n - x - shift) % n with Python semantics for the
possibly negative numerator. -/
def negMod (n : ℕ) (s : ℤ) (x : ℕ) : ℕ := (((n : ℤ) - (x : ℤ) - s) % (n : ℤ)).toNat

theorem negMod_lt (n : ℕ) (s : ℤ) (x : ℕ) (hn : 0 < n) : negMod n s x < n := by
  unfold negMod
  have h0 : (0:ℤ) < (n:ℤ) := by exact_mod_cast hn
  have h1 : ((n:ℤ) - (x:ℤ) - s) % (n:ℤ) < (n:ℤ) := Int.emod_lt_of_pos _ h0
  have h2 : (0:ℤ) ≤ ((n:ℤ) - (x:ℤ) - s) % (n:ℤ) := Int.emod_nonneg _ (by omega)
  omega

/-- The per-axis map is an involution on 0..n-1. -/
theorem negMod_negMod (n : ℕ) (s : ℤ) (x : ℕ) (hn : 0 < n) (hx : x < n) :
    negMod n s (negMod n s x) = x := by
  unfold negMod
  have h0 : (0:ℤ) < (n:ℤ) := by exact_mod_cast hn
  have hnn : (0:ℤ) ≤ ((n:ℤ) - (x:ℤ) - s) % (n:ℤ) := Int.emod_nonneg _ (by omega)
  rw [Int.toNat_of_nonneg hnn]
  have hkey : ((n:ℤ) - ((n:ℤ) - (x:ℤ) - s) % (n:ℤ) - s) % (n:ℤ) = (x:ℤ) := by
    have hme : ((n:ℤ) - (x:ℤ) - s) % (n:ℤ) ≡ (n:ℤ) - (x:ℤ) - s [ZMOD (n:ℤ)] :=
      Int.emod_emod_of_dvd _ dvd_rfl
    have hstep : (n:ℤ) - ((n:ℤ) - (x:ℤ) - s) % (n:ℤ) - s
        ≡ (n:ℤ) - ((n:ℤ) - (x:ℤ) - s) - s [ZMOD (n:ℤ)] := by
      exact (hme.sub_left _).sub_right _
    have hx2 : (n:ℤ) - ((n:ℤ) - (x:ℤ) - s) - s = (x:ℤ) := by ring
    rw [hx2] at hstep
    have := hstep
    unfold Int.ModEq at this
    rw [this, Int.emod_eq_of_lt (by positivity) (by exact_mod_cast hx)]
  rw [hkey]
  exact Int.toNat_natCast x

/-- The flattened index written by the loop iteration with counter t. -/
def permTarget (nx ny nz : ℕ) (sx sy sz : ℤ) (t : ℕ) : ℕ :=
  flat3 ny nz (negMod nx sx (t / (ny * nz))) (negMod ny sy (t / nz % ny))
    (negMod nz sz (t % nz))

/-- One array write res[loc] = value. -/
def updAt (loc value : ℕ) (res : ℕ → ℕ) : ℕ → ℕ :=
  fun l => if l = loc then value else res l

/-- Shallow embedding of the inner helper _permutation: a zero-initialized
array of size nx*ny*nz receives res[loc] = loc_now for every loop counter
loc_now. -/
def perm_kSym (nx ny nz : ℕ) (sx sy sz : ℤ) : ℕ → ℕ :=
  (List.range (nx * ny * nz)).foldl
    (fun res t => updAt (permTarget nx ny nz sx sy sz t) t res) (fun _ => 0)

theorem foldl_updAt_of_none {f : ℕ → ℕ} (l : List ℕ) (res0 : ℕ → ℕ) (i : ℕ)
    (h : ∀ x ∈ l, f x ≠ i) :
    (l.foldl (fun res t => updAt (f t) t res) res0) i = res0 i := by
  induction l generalizing res0 with
  | nil => rfl
  | cons x l ih =>
      simp only [List.foldl_cons]
      rw [ih _ (fun y hy => h y (List.mem_cons_of_mem x hy))]
      unfold updAt
      rw [if_neg (fun hc => h x (List.mem_cons_self x l) hc.symm)]

theorem foldl_updAt_of_unique {f : ℕ → ℕ} (l : List ℕ) (res0 : ℕ → ℕ) (x₀ : ℕ)
    (hmem : x₀ ∈ l) (huniq : ∀ y ∈ l, f y = f x₀ → y = x₀) :
    (l.foldl (fun res t => updAt (f t) t res) res0) (f x₀) = x₀ := by
  induction l generalizing res0 with
  | nil => cases hmem
  | cons x l ih =>
      simp only [List.foldl_cons]
      by_cases hlater : x₀ ∈ l
      · exact ih _ hlater (fun y hy hfy => huniq y (List.mem_cons_of_mem x hy) hfy)
      · have hx : x = x₀ := by
          rcases List.mem_cons.mp hmem with h | h
          · exact h.symm
          · exact absurd h hlater
        subst hx
        have hnone : ∀ y ∈ l, f y ≠ f x := by
          intro y hy hfy
          exact hlater (huniq y (List.mem_cons_of_mem x hy) hfy ▸ hy)
        rw [foldl_updAt_of_none l _ _ hnone]
        unfold updAt
        rw [if_pos rfl]

/-- A map of 0..N-1 into itself that is injective there sends List.range N to
a permutation of itself. -/
theorem map_perm_range_of_inj (e : ℕ → ℕ) (N : ℕ)
    (hrange : ∀ t, t < N → e t < N)
    (hinj : ∀ t u, t < N → u < N → e t = e u → t = u)
    (hsurj : ∀ y, y < N → ∃ t, t < N ∧ e t = y) :
    ((List.range N).map e).Perm (List.range N) := by
  have hnodup : ((List.range N).map e).Nodup := by
    refine List.Nodup.map_on ?_ (List.nodup_range N)
    intro x hx y hy hxy
    exact hinj x y (List.mem_range.mp hx) (List.mem_range.mp hy) hxy
  rw [List.perm_ext_iff_of_nodup hnodup (List.nodup_range N)]
  intro a
  rw [List.mem_map, List.mem_range]
  constructor
  · rintro ⟨t, ht, rfl⟩
    exact hrange t (List.mem_range.mp ht)
  · intro ha
    obtain ⟨t, htN, hta⟩ := hsurj a ha
    exact ⟨t, List.mem_range.mpr htN, hta⟩

/-- The flattened negated-shift map is an involution on 0..nx*ny*nz-1. -/
theorem permTarget_invol (nx ny nz : ℕ) (sx sy sz : ℤ) (t : ℕ)
    (hx : 0 < nx) (hy : 0 < ny) (hz : 0 < nz) (ht : t < nx * ny * nz) :
    permTarget nx ny nz sx sy sz (permTarget nx ny nz sx sy sz t) = t := by
  have h1 : t / (ny * nz) < nx := unflat_lt_1 nx ny nz t ht hy hz
  have h2 : t / nz % ny < ny := Nat.mod_lt _ hy
  have h3 : t % nz < nz := Nat.mod_lt _ hz
  have g1 : negMod nx sx (t / (ny * nz)) < nx := negMod_lt _ _ _ hx
  have g2 : negMod ny sy (t / nz % ny) < ny := negMod_lt _ _ _ hy
  have g3 : negMod nz sz (t % nz) < nz := negMod_lt _ _ _ hz
  unfold permTarget
  rw [flat3_div _ _ _ _ _ g2 g3, flat3_div_mod _ _ _ _ _ g2 g3, flat3_mod _ _ _ _ _ g3]
  rw [negMod_negMod _ _ _ hx h1, negMod_negMod _ _ _ hy h2, negMod_negMod _ _ _ hz h3]
  exact flat3_unflat ny nz t

theorem permTarget_lt (nx ny nz : ℕ) (sx sy sz : ℤ) (t : ℕ)
    (hx : 0 < nx) (hy : 0 < ny) (hz : 0 < nz) :
    permTarget nx ny nz sx sy sz t < nx * ny * nz :=
  flat3_lt _ _ _ _ _ _ (negMod_lt _ _ _ hx) (negMod_lt _ _ _ hy) (negMod_lt _ _ _ hz)

/-- C9.  For every nx, ny, nz >= 1 and every choice of integer shifts, the
index array returned by the inner helper _permutation of
_construct_aux_basis_kSym is a permutation of 0 .. nx*ny*nz - 1: each output
position is assigned exactly once, so applying it to a grid-indexed block
reorders entries without loss or duplication. -/
theorem perm_kSym_isPerm (nx ny nz : ℕ) (sx sy sz : ℤ)
    (hx : 1 ≤ nx) (hy : 1 ≤ ny) (hz : 1 ≤ nz) :
    ((List.range (nx * ny * nz)).map (perm_kSym nx ny nz sx sy sz)).Perm
      (List.range (nx * ny * nz)) := by
  set N := nx * ny * nz with hN
  set f := permTarget nx ny nz sx sy sz with hf
  have hflt : ∀ t, t < N → f t < N := fun t _ => permTarget_lt nx ny nz sx sy sz t hx hy hz
  have hinvol : ∀ t, t < N → f (f t) = t := fun t ht =>
    permTarget_invol nx ny nz sx sy sz t hx hy hz ht
  have hinj : ∀ t u, t < N → u < N → f t = f u → t = u := by
    intro t u ht hu hfe
    have := hinvol t ht
    rw [hfe, hinvol u hu] at this
    exact this.symm
  have hres : ∀ t, t < N → perm_kSym nx ny nz sx sy sz (f t) = t := by
    intro t ht
    unfold perm_kSym
    exact foldl_updAt_of_unique (List.range N) _ t (List.mem_range.mpr ht)
      (fun y hy hfy => hinj y t (List.mem_range.mp hy) ht hfy)
  have hres_eq : ∀ u, u < N → perm_kSym nx ny nz sx sy sz u = f u := by
    intro u hu
    have h1 : f (f u) = u := hinvol u hu
    have h2 : perm_kSym nx ny nz sx sy sz (f (f u)) = f u := hres (f u) (hflt u hu)
    rw [h1] at h2
    exact h2
  have hcongr : (List.range N).map (perm_kSym nx ny nz sx sy sz) = (List.range N).map f := by
    refine List.map_congr_left ?_
    intro t ht
    exact hres_eq t (List.mem_range.mp ht)
  rw [hcongr]
  refine map_perm_range_of_inj f N hflt hinj ?_
  intro y hyN
  exact ⟨f y, hflt y hyN, hinvol y hyN⟩

/-- Witness for C9 at the mesh (2,2,2) and the shift triple (0,0,1) used by
the source for permutation[1]. -/
theorem perm_kSym_isPerm_witness :
    (1:ℕ) ≤ 2 ∧
    ((List.range (2 * 2 * 2)).map (perm_kSym 2 2 2 0 0 1)).Perm
      (List.range (2 * 2 * 2)) :=
  ⟨by decide, perm_kSym_isPerm 2 2 2 0 0 1 (by decide) (by decide) (by decide)⟩
/-! ### Claim C4: column-pivoted QR (source colpivot_qr in
pyscf/pbc/df/isdf/test/test_isdf_fast.py, lines 108-153)

colpivot_qr works on AA = A.T (rows of AA are the columns of A).  For
j in range(min(m, n, max_rank)) it selects p = argmax of the row norms of
AA[j:, :] plus j, swaps rows j and p of AA, the corresponding columns of R
and entries of pivot, writes R[j,j] = norm(AA[j,:]), breaks early when that
norm is below cutoff, otherwise increments npt_find, normalizes
Q[j] = AA[j]/R[j,j], computes R[j, j+1:] = AA[j+1:] . Q[j] and eliminates
AA[j+1:] -= outer(R[j, j+1:], Q[j]).  np.argmax keeps the first maximum in
the current order of the scanned slice. -/

/-- Euclidean norm of the first m entries of a row, np.linalg.norm(v, axis=1). -/
noncomputable def rowNorm (m : ℕ) (v : ℕ → ℝ) : ℝ :=
  Real.sqrt (∑ k ∈ Finset.range m, v k ^ 2)

/-- Dot product over the first m entries. -/
noncomputable def dotRow (m : ℕ) (u v : ℕ → ℝ) : ℝ :=
  ∑ k ∈ Finset.range m, u k * v k

/-- np.argmax over the first k values of f: scans left to right and keeps the
first strict maximum. -/
noncomputable def np_argmax (f : ℕ → ℝ) (k : ℕ) : ℕ :=
  (List.range k).foldl (fun best i => if f best < f i then i else best) 0

/-- Swap the values of a function at two indices (row swap AA[[j,p],:] or
entry swap pivot[[j,p]]). -/
def swapIdx {α : Type} (a b : ℕ) (g : ℕ → α) : ℕ → α :=
  fun i => if i = a then g b else if i = b then g a else g i

/-- Swap two columns of a matrix, R[:, [j,p]] = R[:, [p,j]]. -/
def swapCols (a b : ℕ) (R : Mat) : Mat :=
  fun r c => if c = a then R r b else if c = b then R r a else R r c

/-- Write a single matrix entry. -/
def setEntry (M : Mat) (i j : ℕ) (x : ℝ) : Mat :=
  fun r c => if r = i ∧ c = j then x else M r c

/-- State of the colpivot_qr loop. -/
structure QRState where
  AA : Mat
  R : Mat
  Q : Mat
  pivot : ℕ → ℕ
  npt_find : ℕ
  stopped : Bool

/-- Initial state: AA = A.T, R and Q zeroed, pivot = np.arange(n). -/
def colpivot_init (A : Mat) : QRState :=
  { AA := fun i k => A k i
    R := fun _ _ => 0
    Q := fun _ _ => 0
    pivot := fun i => i
    npt_find := 0
    stopped := false }

/-- Pivot position chosen at step j: the first maximum of the residual row
norms of AA[j:, :], offset by j. -/
noncomputable def selPos (m n : ℕ) (s : QRState) (j : ℕ) : ℕ :=
  np_argmax (fun t => rowNorm m (s.AA (j + t))) (n - j) + j

/-- State after the three swaps of step j with pivot position p and the
R[j,j] = norm(AA[j,:]) write. -/
noncomputable def stepSwapped (m : ℕ) (s : QRState) (j p : ℕ) : QRState :=
  { AA := swapIdx j p s.AA
    R := setEntry (swapCols j p s.R) j j (rowNorm m (swapIdx j p s.AA j))
    Q := s.Q
    pivot := swapIdx j p s.pivot
    npt_find := s.npt_find
    stopped := s.stopped }

/-- Elimination part of step j on the swapped state s1: npt_find += 1,
Q[j] = AA[j] / R[j,j], R[j, j+1:n] = AA[j+1:n] . Q[j], and
AA[i] -= R[j,i] * Q[j] for j < i < n. -/
noncomputable def stepElim (m n : ℕ) (s1 : QRState) (j : ℕ) : QRState :=
  { AA := fun i k =>
      if j + 1 ≤ i ∧ i < n then
        s1.AA i k - dotRow m (s1.AA i) (fun k2 => s1.AA j k2 / s1.R j j)
          * (s1.AA j k / s1.R j j)
      else s1.AA i k
    R := fun r c =>
      if r = j ∧ j + 1 ≤ c ∧ c < n then
        dotRow m (s1.AA c) (fun k2 => s1.AA j k2 / s1.R j j)
      else s1.R r c
    Q := fun r c => if r = j then s1.AA j c / s1.R j j else s1.Q r c
    pivot := s1.pivot
    npt_find := s1.npt_find + 1
    stopped := s1.stopped }

/-- One iteration of the colpivot_qr loop. -/
noncomputable def colpivot_step (m n : ℕ) (cutoff : ℝ) (s : QRState) (j : ℕ) : QRState :=
  if s.stopped then s
  else
    if rowNorm m ((stepSwapped m s j (selPos m n s j)).AA j) < cutoff then
      { stepSwapped m s j (selPos m n s j) with stopped := true }
    else
      stepElim m n (stepSwapped m s j (selPos m n s j)) j

/-- State before iteration j of the loop. -/
noncomputable def colpivot_stateAt (m n max_rank : ℕ) (cutoff : ℝ) (A : Mat) (j : ℕ) : QRState :=
  (List.range j).foldl (colpivot_step m n cutoff) (colpivot_init A)

/-- Shallow embedding of colpivot_qr: the loop runs over
range(min(m, n, max_rank)). -/
noncomputable def colpivot_qr (m n max_rank : ℕ) (cutoff : ℝ) (A : Mat) : QRState :=
  colpivot_stateAt m n max_rank cutoff A (min m (min n max_rank))

theorem np_argmax_zero (f : ℕ → ℝ) : np_argmax f 0 = 0 := rfl

theorem np_argmax_succ (f : ℕ → ℝ) (k : ℕ) :
    np_argmax f (k + 1) = if f (np_argmax f k) < f k then k else np_argmax f k := by
  unfold np_argmax
  rw [List.range_succ, List.foldl_append]
  rfl

theorem np_argmax_lt (f : ℕ → ℝ) (k : ℕ) (hk : 0 < k) : np_argmax f k < k := by
  induction k with
  | zero => omega
  | succ k ih =>
      rw [np_argmax_succ]
      split_ifs
      · omega
      · by_cases hk0 : k = 0
        · subst hk0
          rw [np_argmax_zero]
          omega
        · exact Nat.lt_succ_of_lt (ih (by omega))

theorem np_argmax_le (f : ℕ → ℝ) (k : ℕ) : ∀ t, t < k → f t ≤ f (np_argmax f k) := by
  induction k with
  | zero => omega
  | succ k ih =>
      intro t ht
      rw [np_argmax_succ]
      split_ifs with h
      · rcases Nat.lt_succ_iff_lt_or_eq.mp ht with ht2 | ht2
        · exact le_trans (ih t ht2) (le_of_lt h)
        · subst ht2
          exact le_refl _
      · rcases Nat.lt_succ_iff_lt_or_eq.mp ht with ht2 | ht2
        · exact ih t ht2
        · subst ht2
          exact le_of_not_lt h

theorem np_argmax_first (f : ℕ → ℝ) (k : ℕ) :
    ∀ t, t < np_argmax f k → f t < f (np_argmax f k) := by
  induction k with
  | zero =>
      rw [np_argmax_zero]
      omega
  | succ k ih =>
      intro t ht
      rw [np_argmax_succ] at *
      split_ifs with h
      · rw [if_pos h] at ht
        calc f t ≤ f (np_argmax f k) := np_argmax_le f k t ht
        _ < f k := h
      · rw [if_neg h] at ht
        exact ih t ht
theorem swapIdx_left {α : Type} (a b : ℕ) (g : ℕ → α) : swapIdx a b g a = g b := by
  unfold swapIdx
  rw [if_pos rfl]

theorem swapIdx_comp {α : Type} (a b : ℕ) (g : ℕ → α) :
    swapIdx a b g = fun i => g (swapIdx a b id i) := by
  funext i
  simp only [swapIdx, id]
  split_ifs <;> simp_all

theorem swapIdx_id_invol (a b t : ℕ) : swapIdx a b id (swapIdx a b id t) = t := by
  unfold swapIdx id
  split_ifs <;> omega

/-- Swapping two positions below n permutes the image list of range n. -/
theorem map_swapIdx_perm (g : ℕ → ℕ) (n a b : ℕ) (ha : a < n) (hb : b < n) :
    ((List.range n).map (swapIdx a b g)).Perm ((List.range n).map g) := by
  have h1 : (List.range n).map (swapIdx a b g)
      = ((List.range n).map (swapIdx a b id)).map g := by
    rw [List.map_map]
    refine List.map_congr_left ?_
    intro t _
    rw [swapIdx_comp]
    rfl
  rw [h1]
  refine List.Perm.map g ?_
  refine map_perm_range_of_inj (swapIdx a b id) n ?_ ?_ ?_
  · intro t ht
    unfold swapIdx id
    split_ifs <;> omega
  · intro t u ht hu htu
    have h2 := swapIdx_id_invol a b t
    rw [htu, swapIdx_id_invol] at h2
    exact h2.symm
  · intro y hy
    refine ⟨swapIdx a b id y, ?_, swapIdx_id_invol a b y⟩
    unfold swapIdx id
    split_ifs <;> omega

theorem step_of_stopped (m n : ℕ) (cutoff : ℝ) (s : QRState) (j : ℕ)
    (h : s.stopped = true) : colpivot_step m n cutoff s j = s := by
  unfold colpivot_step
  rw [h]
  rfl

theorem step_pivot (m n : ℕ) (cutoff : ℝ) (s : QRState) (j : ℕ)
    (h : s.stopped = false) :
    (colpivot_step m n cutoff s j).pivot = swapIdx j (selPos m n s j) s.pivot := by
  unfold colpivot_step
  rw [h]
  simp only [Bool.false_eq_true, if_false]
  split_ifs <;> rfl

theorem step_stopped_monotone (m n : ℕ) (cutoff : ℝ) (s : QRState) (j : ℕ)
    (h : (colpivot_step m n cutoff s j).stopped = false) : s.stopped = false := by
  by_cases hs : s.stopped = true
  · rw [step_of_stopped m n cutoff s j hs] at h
    rw [hs] at h
    cases h
  · simpa using hs

theorem step_npt_le (m n : ℕ) (cutoff : ℝ) (s : QRState) (j : ℕ) :
    (colpivot_step m n cutoff s j).npt_find ≤ s.npt_find + 1 := by
  unfold colpivot_step
  split_ifs <;> simp [stepElim, stepSwapped]

theorem foldl_npt_le (m n : ℕ) (cutoff : ℝ) (l : List ℕ) (s : QRState) :
    ((l.foldl (colpivot_step m n cutoff) s).npt_find) ≤ s.npt_find + l.length := by
  induction l generalizing s with
  | nil => simp
  | cons x l ih =>
      simp only [List.foldl_cons, List.length_cons]
      calc ((l.foldl (colpivot_step m n cutoff) (colpivot_step m n cutoff s x)).npt_find)
          ≤ (colpivot_step m n cutoff s x).npt_find + l.length := ih _
      _ ≤ s.npt_find + 1 + l.length := by
          have := step_npt_le m n cutoff s x
          omega
      _ = s.npt_find + (l.length + 1) := by omega

theorem selPos_lt (m n : ℕ) (s : QRState) (j : ℕ) (hj : j < n) : selPos m n s j < n := by
  unfold selPos
  have h1 : np_argmax (fun t => rowNorm m (s.AA (j + t))) (n - j) < n - j :=
    np_argmax_lt _ _ (by omega)
  omega

theorem step_pivot_perm (m n : ℕ) (cutoff : ℝ) (s : QRState) (j : ℕ) (hj : j < n) :
    ((List.range n).map ((colpivot_step m n cutoff s j).pivot)).Perm
      ((List.range n).map s.pivot) := by
  by_cases hs : s.stopped = true
  · rw [step_of_stopped m n cutoff s j hs]
  · have hs2 : s.stopped = false := by simpa using hs
    rw [step_pivot m n cutoff s j hs2]
    exact map_swapIdx_perm s.pivot n j (selPos m n s j) hj (selPos_lt m n s j hj)

theorem foldl_pivot_perm (m n : ℕ) (cutoff : ℝ) (l : List ℕ) (s : QRState)
    (hl : ∀ j ∈ l, j < n) :
    ((List.range n).map ((l.foldl (colpivot_step m n cutoff) s).pivot)).Perm
      ((List.range n).map s.pivot) := by
  induction l generalizing s with
  | nil => simp
  | cons x l ih =>
      simp only [List.foldl_cons]
      refine List.Perm.trans (ih _ (fun j hj => hl j (List.mem_cons_of_mem x hj))) ?_
      exact step_pivot_perm m n cutoff s x (hl x (List.mem_cons_self x l))

/-- C4 (amended).  For every real matrix A of shape (m, n) and every
max_rank: the number of pivots npt_find reported by colpivot_qr never exceeds
min(m, n, max_rank); the returned pivot array is always a permutation of
0..n-1; and at every elimination step the selected position carries the
largest residual row norm among the remaining candidates, ties broken by
first occurrence in the current working order (the order after the earlier
pivot swaps), the selected candidate being moved to elimination position j of
the pivot array. -/
theorem colpivot_qr_spec (m n max_rank : ℕ) (cutoff : ℝ) (A : Mat) :
    (colpivot_qr m n max_rank cutoff A).npt_find ≤ min m (min n max_rank)
    ∧ ((List.range n).map (colpivot_qr m n max_rank cutoff A).pivot).Perm (List.range n)
    ∧ (∀ (s : QRState) (j : ℕ), j < n →
        (j ≤ selPos m n s j ∧ selPos m n s j < n)
        ∧ (∀ t, j ≤ t → t < n → rowNorm m (s.AA t) ≤ rowNorm m (s.AA (selPos m n s j)))
        ∧ (∀ t, j ≤ t → t < selPos m n s j →
            rowNorm m (s.AA t) < rowNorm m (s.AA (selPos m n s j)))
        ∧ (s.stopped = false →
            (colpivot_step m n cutoff s j).pivot j = s.pivot (selPos m n s j))) := by
  refine ⟨?_, ?_, ?_⟩
  · unfold colpivot_qr colpivot_stateAt
    have h := foldl_npt_le m n cutoff (List.range (min m (min n max_rank))) (colpivot_init A)
    simpa [colpivot_init] using h
  · unfold colpivot_qr colpivot_stateAt
    have h := foldl_pivot_perm m n cutoff (List.range (min m (min n max_rank)))
      (colpivot_init A) (fun j hj => by
        have := List.mem_range.mp hj
        omega)
    have hid : (List.range n).map (colpivot_init A).pivot = List.range n := by
      simp [colpivot_init]
    rw [hid] at h
    exact h
  · intro s j hj
    have hsel : selPos m n s j < n := selPos_lt m n s j hj
    have hselge : j ≤ selPos m n s j := by
      unfold selPos
      omega
    refine ⟨⟨hselge, hsel⟩, ?_, ?_, ?_⟩
    · intro t hjt htn
      have h1 := np_argmax_le (fun u => rowNorm m (s.AA (j + u))) (n - j) (t - j) (by omega)
      simp only at h1
      rw [show j + (t - j) = t by omega] at h1
      unfold selPos
      rw [show np_argmax (fun u => rowNorm m (s.AA (j + u))) (n - j) + j
          = j + np_argmax (fun u => rowNorm m (s.AA (j + u))) (n - j) by omega]
      exact h1
    · intro t hjt htp
      have h1 := np_argmax_first (fun u => rowNorm m (s.AA (j + u))) (n - j) (t - j) (by
        unfold selPos at htp
        omega)
      simp only at h1
      rw [show j + (t - j) = t by omega] at h1
      unfold selPos
      rw [show np_argmax (fun u => rowNorm m (s.AA (j + u))) (n - j) + j
          = j + np_argmax (fun u => rowNorm m (s.AA (j + u))) (n - j) by omega]
      exact h1
    · intro hstop
      rw [step_pivot m n cutoff s j hstop, swapIdx_left]
/-- The tie-break rule as the specification states it: at every step the
selected candidate has, among all remaining candidates of equal (maximal)
residual norm, the smallest original column index (first occurrence in input
order).  pivot t is the original index of the candidate currently at
position t. -/
def ties_by_input_order (m n max_rank : ℕ) (cutoff : ℝ) (A : Mat) : Prop :=
  ∀ j, j < min m (min n max_rank) →
    (colpivot_stateAt m n max_rank cutoff A j).stopped = false →
    ∀ t, j ≤ t → t < n →
      rowNorm m ((colpivot_stateAt m n max_rank cutoff A j).AA t)
        = rowNorm m ((colpivot_stateAt m n max_rank cutoff A j).AA
            (selPos m n (colpivot_stateAt m n max_rank cutoff A j) j))
      → (colpivot_stateAt m n max_rank cutoff A j).pivot
            (selPos m n (colpivot_stateAt m n max_rank cutoff A j) j)
          ≤ (colpivot_stateAt m n max_rank cutoff A j).pivot t

/-- A 2 x 3 matrix with columns (0,1), (0,1), (2,0): the third column is
selected first and swapped into position 0; the two remaining candidates then
tie, and np.argmax selects the one at working position 1, which is original
column 1, although original column 0 is also remaining. -/
def qrA : Mat := fun r c =>
  if r = 0 ∧ c = 2 then 2
  else if r = 1 ∧ c = 0 then 1
  else if r = 1 ∧ c = 1 then 1
  else 0

theorem rowNorm2_eval (v : ℕ → ℝ) : rowNorm 2 v = Real.sqrt (v 0 ^ 2 + v 1 ^ 2) := by
  unfold rowNorm
  rw [Finset.sum_range_succ, Finset.sum_range_succ, Finset.sum_range_zero, zero_add]

theorem dotRow2_eval (u v : ℕ → ℝ) : dotRow 2 u v = u 0 * v 0 + u 1 * v 1 := by
  unfold dotRow
  rw [Finset.sum_range_succ, Finset.sum_range_succ, Finset.sum_range_zero, zero_add]

theorem np_argmax2_eval (f : ℕ → ℝ) (a b : ℝ) (h0 : f 0 = a) (h1 : f 1 = b)
    (hab : ¬ a < b) : np_argmax f 2 = 0 := by
  have e1 : np_argmax f 1 = 0 := by
    rw [np_argmax_succ, np_argmax_zero]
    simp
  rw [np_argmax_succ, e1, h0, h1, if_neg hab]

theorem np_argmax3_eval (f : ℕ → ℝ) (a b c : ℝ) (h0 : f 0 = a) (h1 : f 1 = b)
    (h2 : f 2 = c) (hab : ¬ a < b) (hac : a < c) : np_argmax f 3 = 2 := by
  have e2 : np_argmax f 2 = 0 := np_argmax2_eval f a b h0 h1 hab
  rw [np_argmax_succ, e2, h0, h2, if_pos hac]

/-- C4 (counterexample).  The tie-break rule of the claim, first occurrence
in input order, fails on qrA: after the first pivot swap the remaining
candidates are scanned in the swapped working order, not in input order. -/
theorem colpivot_qr_tie_counterexample :
    ¬ ties_by_input_order 2 3 3 ((1:ℝ)/100000000000000) qrA := by
  intro h
  -- residual norms at step 0
  have hA0 : rowNorm 2 ((colpivot_init qrA).AA 0) = 1 := by
    rw [rowNorm2_eval]
    norm_num [colpivot_init, qrA]
  have hA1 : rowNorm 2 ((colpivot_init qrA).AA 1) = 1 := by
    rw [rowNorm2_eval]
    norm_num [colpivot_init, qrA]
  have hA2 : rowNorm 2 ((colpivot_init qrA).AA 2) = 2 := by
    rw [rowNorm2_eval]
    norm_num [colpivot_init, qrA]
    rw [show (4:ℝ) = 2 ^ 2 by norm_num]
    exact Real.sqrt_sq (by norm_num)
  -- pivot selection at step 0 picks position 2
  have hsel0 : selPos 2 3 (colpivot_init qrA) 0 = 2 := by
    have harg := np_argmax3_eval
      (fun t => rowNorm 2 ((colpivot_init qrA).AA (0 + t))) 1 1 2
      hA0 hA1 hA2 (by norm_num) (by norm_num)
    unfold selPos
    rw [show (3:ℕ) - 0 = 3 from rfl, harg]
  -- the swapped leading row has norm 2, so no early break
  have hswAA0 : (stepSwapped 2 (colpivot_init qrA) 0 2).AA 0 = (colpivot_init qrA).AA 2 := by
    show swapIdx 0 2 (colpivot_init qrA).AA 0 = _
    rw [swapIdx_left]
  have hRjj : rowNorm 2 ((stepSwapped 2 (colpivot_init qrA) 0 2).AA 0) = 2 := by
    rw [hswAA0, hA2]
  have hs1 : colpivot_stateAt 2 3 3 ((1:ℝ)/100000000000000) qrA 1
      = stepElim 2 3 (stepSwapped 2 (colpivot_init qrA) 0 2) 0 := by
    unfold colpivot_stateAt
    rw [show List.range 1 = [0] by decide]
    simp only [List.foldl_cons, List.foldl_nil]
    unfold colpivot_step
    rw [show (colpivot_init qrA).stopped = false from rfl]
    simp only [Bool.false_eq_true, if_false]
    rw [hsel0]
    have hnocut : ¬ rowNorm 2 ((stepSwapped 2 (colpivot_init qrA) 0 2).AA 0)
        < (1:ℝ)/100000000000000 := by
      rw [hRjj]
      norm_num
    rw [if_neg hnocut]
  -- the state before step 1
  have hstop1 : (stepElim 2 3 (stepSwapped 2 (colpivot_init qrA) 0 2) 0).stopped = false := rfl
  have hpiv1 : (stepElim 2 3 (stepSwapped 2 (colpivot_init qrA) 0 2) 0).pivot 1 = 1 := by
    show swapIdx 0 2 (colpivot_init qrA).pivot 1 = 1
    norm_num [swapIdx, colpivot_init]
  have hpiv2 : (stepElim 2 3 (stepSwapped 2 (colpivot_init qrA) 0 2) 0).pivot 2 = 0 := by
    show swapIdx 0 2 (colpivot_init qrA).pivot 2 = 0
    norm_num [swapIdx, colpivot_init]
  -- entries of the swapped state used by the elimination
  have hswR : (stepSwapped 2 (colpivot_init qrA) 0 2).R 0 0 = 2 := by
    show setEntry (swapCols 0 2 (colpivot_init qrA).R) 0 0
        (rowNorm 2 (swapIdx 0 2 (colpivot_init qrA).AA 0)) 0 0 = 2
    unfold setEntry
    rw [if_pos ⟨rfl, rfl⟩, swapIdx_left, hA2]
  have hswAA1 : (stepSwapped 2 (colpivot_init qrA) 0 2).AA 1 = (colpivot_init qrA).AA 1 := by
    show swapIdx 0 2 (colpivot_init qrA).AA 1 = _
    norm_num [swapIdx]
  have hswAA2 : (stepSwapped 2 (colpivot_init qrA) 0 2).AA 2 = (colpivot_init qrA).AA 0 := by
    show swapIdx 0 2 (colpivot_init qrA).AA 2 = _
    norm_num [swapIdx]
  -- residual entries after the elimination of step 0
  have eA : ∀ i k : ℕ, 0 + 1 ≤ i → i < 3 →
      (stepElim 2 3 (stepSwapped 2 (colpivot_init qrA) 0 2) 0).AA i k
        = (stepSwapped 2 (colpivot_init qrA) 0 2).AA i k
          - dotRow 2 ((stepSwapped 2 (colpivot_init qrA) 0 2).AA i)
              (fun k2 => (stepSwapped 2 (colpivot_init qrA) 0 2).AA 0 k2
                / (stepSwapped 2 (colpivot_init qrA) 0 2).R 0 0)
            * ((stepSwapped 2 (colpivot_init qrA) 0 2).AA 0 k
                / (stepSwapped 2 (colpivot_init qrA) 0 2).R 0 0) := by
    intro i k h1i h2i
    simp only [stepElim]
    rw [if_pos ⟨h1i, h2i⟩]
  -- residual norms before step 1: both remaining candidates have norm 1
  have hn1 : rowNorm 2 ((stepElim 2 3 (stepSwapped 2 (colpivot_init qrA) 0 2) 0).AA 1) = 1 := by
    rw [rowNorm2_eval, eA 1 0 (by omega) (by omega), eA 1 1 (by omega) (by omega)]
    rw [dotRow2_eval, hswR, hswAA1, hswAA0]
    norm_num [colpivot_init, qrA]
  have hn2 : rowNorm 2 ((stepElim 2 3 (stepSwapped 2 (colpivot_init qrA) 0 2) 0).AA 2) = 1 := by
    rw [rowNorm2_eval, eA 2 0 (by omega) (by omega), eA 2 1 (by omega) (by omega)]
    rw [dotRow2_eval, hswR, hswAA2, hswAA0]
    norm_num [colpivot_init, qrA]
  -- pivot selection at step 1 picks working position 1 (original column 1)
  have hsel1 : selPos 2 3 (stepElim 2 3 (stepSwapped 2 (colpivot_init qrA) 0 2) 0) 1 = 1 := by
    have harg := np_argmax2_eval
      (fun t => rowNorm 2
        ((stepElim 2 3 (stepSwapped 2 (colpivot_init qrA) 0 2) 0).AA (1 + t))) 1 1
      hn1 hn2 (by norm_num)
    unfold selPos
    rw [show (3:ℕ) - 1 = 2 from rfl, harg]
  -- instantiate the claimed tie-break rule at step 1, candidate t = 2
  have hinst := h 1 (by norm_num)
  rw [hs1] at hinst
  have hbad := hinst hstop1 2 (by norm_num) (by norm_num)
  rw [hsel1] at hbad
  have hbad2 := hbad (by rw [hn1, hn2])
  rw [hpiv1, hpiv2] at hbad2
  omega

end ISDFKSym
